import Mathlib

/-!
The broker psserver: a shallow embedding of the broker and its topic index

The definitions below follow `src/stringmap.c` and `src/psserver.c` (and the
function `is_valid_string` of `src/psclient.c`).

Conventions of the embedding.

* A C string is the list of its characters (`CString`); `NULL` is `none`.
* A `Client*` is represented by the `id` of the `Client` it points to:
  `process_connections` gives every `Client` a fresh id (`++clientCount`), so
  pointer equality and id equality coincide.
* A `ClientArray` is referenced from exactly one `StringMapItem` (it is
  allocated in the `sub` branch and stored at once), so the map holds the array
  by value and an in-place update through the pointer is an update of the entry.
* The buffer `a->client` is the list of its written slots `0 .. used-1`;
  `used` is the length of that list.  Reading a slot that was never written, or
  writing outside the `size` allocated slots, has no defined result: the
  functions return `none` there.
* Every `fprintf` to a `fileWrite` is recorded, in order, in `Server.out` as the
  pair (id of the client owning the stream, text written).  A `fprintf` to a
  stream that its owner has closed with `fclose` has no defined result: the
  step that makes it is `none`.
* `process_connections` assigns every field of a new `Client` except `name`.
  The value that `malloc` left in that field is a parameter of the accept step:
  `none` when the field reads as NULL, `some g` when it reads as a pointer to
  the characters `g`.
* The handler of one connection is modelled line by line: `client_thread_line`
  is one pass through the body of the `while` loop of `client_thread`, and the
  threads interleave at the granularity of whole passes (`step`).  The value of
  the semaphore is part of the state, so that a thread can start only when
  `take_lock` can return.
* A line is what `read_line` delivers: it has no newline (and, being a C
  string, no NUL character).
-/

namespace PSServer

/-- A C string: the characters before the terminating NUL. -/
abbrev CString := List Char

/-- The test `strchr(s, c) != NULL`. -/
def strchr (s : CString) (c : Char) : Bool := decide (c ∈ s)

/-- The function `strlen`. -/
def strlen (s : CString) : Nat := s.length

/-- The function `is_valid_string` of psserver.c (and of psclient.c, same body). -/
def is_valid_string (s : CString) : Nat :=
  if strchr s ' ' || strchr s ':' || strchr s '\n' then 0 else 1

/-- Modelled from the spec: `split_by_char(str, split, maxFields)` belongs to the
course library (header csse2310a3.h) and is not in the repository.  It cuts
`str` at occurrences of `split` into at most `maxFields` fields (no limit when
`maxFields` is 0), the last field keeping the rest of the string; the result is
the NULL-terminated array of the fields, here the list of the fields, so that
an index past the end of the list reads the NULL terminator.  With
`maxFields = 2` and a space this is the decoder's "splits on the first space
into verb and tail". -/
def split_by_char : CString → Char → Nat → List CString
  | [], _, _ => [[]]
  | c :: cs, split, maxFields =>
    if c = split ∧ maxFields ≠ 1 then
      [] :: split_by_char cs split (maxFields - 1)
    else
      match split_by_char cs split maxFields with
      | f :: fs => (c :: f) :: fs
      | [] => [[c]]

/-! ## stringmap.c -/

/-- The struct `StringMapItem`: a key and the item pointer stored under it. -/
structure StringMapItem (α : Type) where
  key : CString
  item : α
deriving DecidableEq

/-- The struct `StringMap`: the entries `sm[0 .. count-1]` and `count`. -/
structure StringMap (α : Type) where
  sm : List (StringMapItem α)
  count : Nat
deriving DecidableEq

/-- The entries the loops `for (i = 0; i < sm->count; i++)` visit. -/
def StringMap.entries {α : Type} (m : StringMap α) : List (StringMapItem α) :=
  m.sm.take m.count

/-- The function `stringmap_init`: no entry, `count = 0`. -/
def stringmap_init {α : Type} : StringMap α := { sm := [], count := 0 }

/-- The loop of `stringmap_search`: the item of the first entry whose key
compares equal (`strcmp == 0`). -/
def searchLoop {α : Type} (key : CString) : List (StringMapItem α) → Option α
  | [] => none
  | e :: es => if e.key = key then some e.item else searchLoop key es

/-- The function `stringmap_search`; `none` is the NULL result. -/
def stringmap_search {α : Type} (m : StringMap α) (key : Option CString) : Option α :=
  match key with
  | none => none
  | some k => searchLoop k m.entries

/-- The function `stringmap_add`: the new map and the returned int. -/
def stringmap_add {α : Type} (m : StringMap α) (key : Option CString) (item : Option α) :
    StringMap α × Nat :=
  match key, item with
  | some k, some it =>
    match stringmap_search m (some k) with
    | some _ => (m, 0)
    | none => ({ sm := m.entries ++ [{ key := k, item := it }], count := m.count + 1 }, 1)
  | _, _ => (m, 0)

/-- The loop of `stringmap_remove`: drop the first entry with the key and shift
the later entries one slot down; `none` when no entry has the key. -/
def removeLoop {α : Type} (key : CString) :
    List (StringMapItem α) → Option (List (StringMapItem α))
  | [] => none
  | e :: es =>
    if e.key = key then some es
    else match removeLoop key es with
      | some es' => some (e :: es')
      | none => none

/-- The function `stringmap_remove`: the new map and the returned int. -/
def stringmap_remove {α : Type} (m : StringMap α) (key : Option CString) :
    StringMap α × Nat :=
  match key with
  | none => (m, 0)
  | some k =>
    match removeLoop k m.entries with
    | some es => ({ sm := es, count := m.count - 1 }, 1)
    | none => (m, 0)

/-- The loop of `stringmap_iterate` for a non-NULL `prev`; a `StringMapItem*` is
represented by the index of the slot holding it. -/
def iterateLoop (count prev : Nat) (i : Nat) : Nat → Option Nat
  | 0 => none
  | fuel + 1 =>
    if i = prev then
      (if i + 1 = count then none else some (i + 1))
    else iterateLoop count prev (i + 1) fuel

/-- The function `stringmap_iterate`.  The outer `none` is "no defined result":
with `prev == NULL` the code returns `sm->sm[0]` without looking at `count`, and
slot 0 of a map without entries was never written.  The inner option is the
returned pointer (`none` for NULL). -/
def stringmap_iterate {α : Type} (m : StringMap α) (prev : Option Nat) :
    Option (Option Nat) :=
  match prev with
  | none => if 0 < m.entries.length then some (some 0) else none
  | some p => some (iterateLoop m.count p 0 m.count)

/-! ## psserver.c: ClientArray -/

/-- The struct `ClientArray`.  `client` lists the written slots, so `used` is
its length; `size` is the number of allocated slots and `count` the number of
clients in the array. -/
structure ClientArray where
  client : List Nat
  size : Nat
  count : Nat
deriving DecidableEq

/-- The field `used`: the index of the next slot `insert_client_array` writes. -/
def ClientArray.used (a : ClientArray) : Nat := a.client.length

/-- The subscriber list of a topic: the first `count` slots of its array. -/
def ClientArray.subscribers (a : ClientArray) : List Nat := a.client.take a.count

/-- The function `init_client_array`. -/
def init_client_array (initialSize : Nat) : ClientArray :=
  { client := [], size := initialSize, count := 0 }

/-- The loops `for (i = 0; i < a->count; i++)` that look for a client in the
slots `i, i+1, ...` (`fuel` iterations left) and stop at the first slot holding
it: the index found, `some none` when the loop runs to its end, `none` when a
slot that was never written is read. -/
def findClient (client : List Nat) (element : Nat) (i : Nat) : Nat → Option (Option Nat)
  | 0 => some none
  | fuel + 1 =>
    match client[i]? with
    | none => none
    | some c => if c = element then some (some i) else findClient client element (i + 1) fuel

/-- The function `insert_client_array`: the new array and the returned int. -/
def insert_client_array (a : ClientArray) (element : Nat) : Option (ClientArray × Nat) :=
  match findClient a.client element 0 a.count with
  | none => none
  | some (some _) => some (a, 0)
  | some none =>
    let size := if a.used = a.size then a.size * 2 else a.size
    if a.used < size then
      some ({ client := a.client ++ [element], size := size, count := a.count + 1 }, 1)
    else none

/-- The loop of `remove_client`: `a->client[i] = a->client[i + 1]` for
`i = index, ..., count - 2` (`fuel` iterations left). -/
def shiftLoop (client : List Nat) (i : Nat) : Nat → Option (List Nat)
  | 0 => some client
  | fuel + 1 =>
    match client[i + 1]? with
    | none => none
    | some c => shiftLoop (client.set i c) (i + 1) fuel

/-- The function `remove_client`; `used` and `size` are left as they are. -/
def remove_client (a : ClientArray) (index : Int) : Option ClientArray :=
  if index < 0 ∨ index ≥ (a.count : Int) then some a
  else
    match shiftLoop a.client index.toNat (a.count - 1 - index.toNat) with
    | none => none
    | some client => some { client := client, size := a.size, count := a.count - 1 }

/-- The function `delete_client`. -/
def delete_client (a : ClientArray) (element : Nat) : Option ClientArray :=
  match findClient a.client element 0 a.count with
  | none => none
  | some none => some a
  | some (some i) => remove_client a (i : Int)

/-! ## psserver.c: clients, the shared state and the connection handler -/

/-- The struct `Client`, with the fields the handler uses.  `name = none` is
`client->name == NULL`; `started` says that the client's thread is past the
`take_lock` at the top of `client_thread`, `closed` that it has run the two
`fclose` calls at its end. -/
structure Client where
  id : Nat
  name : Option CString
  active : Bool
  started : Bool
  closed : Bool
deriving DecidableEq

/-- The state shared by the threads of `process_connections`: its locals
`clientCount`, `statistics`, `sm` and the semaphore `l` (its value is `guard`),
the `Client` structs allocated so far, and the record of all writes to the
clients' `fileWrite` streams. -/
structure Server where
  clientCount : Nat
  clients : List Client
  sm : StringMap ClientArray
  statistics : List Int
  guard : Nat
  out : List (Nat × CString)
deriving DecidableEq

/-- The state of `process_connections` when it enters its accept loop:
`clientCount = 0`, `statistics = {0}`, `sm = stringmap_init()`, `init_lock(&l)`. -/
def Server.init : Server :=
  { clientCount := 0, clients := [], sm := stringmap_init,
    statistics := [0, 0, 0, 0, 0], guard := 1, out := [] }

/-- The `Client` struct with the given id, if one has been allocated. -/
def Server.getClient (s : Server) (id : Nat) : Option Client :=
  s.clients.find? (fun c => c.id = id)

/-- Replace the `Client` struct with the id of `c` by `c`. -/
def Server.setClient (s : Server) (c : Client) : Server :=
  { s with clients := s.clients.map (fun d => if d.id = c.id then c else d) }

/-- Whether the stream `fileWrite` of the client with the given id can be
written to: the struct has been allocated and the client's thread has not run
the `fclose` calls at its end. -/
def Server.streamOpen (s : Server) (id : Nat) : Bool :=
  match s.getClient id with
  | some c => !c.closed
  | none => false

/-- The subscriber list the index holds for a topic: the first `count` slots of
the topic's array, and the empty list when the topic has no entry. -/
def Server.subscribers_of (s : Server) (topic : CString) : List Nat :=
  match stringmap_search s.sm (some topic) with
  | some a => a.subscribers
  | none => []

/-- A call `fprintf(f, ...)` followed by `fflush(f)`, where `f` is the stream
`fileWrite` of the client with the given id. -/
def fprintf (s : Server) (fileWrite : Nat) (text : CString) : Server :=
  { s with out := s.out ++ [(fileWrite, text)] }

/-- The text `":invalid\n"`. -/
def invalidLine : CString := [':', 'i', 'n', 'v', 'a', 'l', 'i', 'd', '\n']

/-- The text written by `fprintf(c->fileWrite, "%s:%s:%s\n", name, topic, payload)`. -/
def pubLine (name topic payload : CString) : CString :=
  name ++ [':'] ++ topic ++ [':'] ++ payload ++ ['\n']

/-- The verb strings compared with `strcmp`. -/
def verbName : CString := ['n', 'a', 'm', 'e']

/-- The verb `sub`. -/
def verbSub : CString := ['s', 'u', 'b']

/-- The verb `pub`. -/
def verbPub : CString := ['p', 'u', 'b']

/-- The verb `unsub`. -/
def verbUnsub : CString := ['u', 'n', 's', 'u', 'b']

/-- The `name` branch of `client_thread` (lines 300-309). -/
def name_branch (s : Server) (client : Client) (tail : Option CString) : Server :=
  match tail with
  | none => fprintf s client.id invalidLine
  | some t =>
    if strlen t ≠ 0 ∧ is_valid_string t ≠ 0 then
      (if client.name = none then s.setClient { client with name := some t } else s)
    else fprintf s client.id invalidLine

/-- The `sub` branch of `client_thread` (lines 310-337).  The boolean of the
result says whether control reaches `release_lock` at the end of the loop body
(`false`: the body was left by `continue`). -/
def sub_branch (s : Server) (client : Client) (tail : Option CString) :
    Option (Server × Bool) :=
  if client.name = none then some (s, false)
  else
    match stringmap_search s.sm tail with
    | none =>
      match insert_client_array (init_client_array 1) client.id with
      | none => none
      | some (a, _) => some ({ s with sm := (stringmap_add s.sm tail (some a)).1 }, true)
    | some a =>
      match findClient a.client client.id 0 a.count with
      | none => none
      | some (some _) => some (s, true)
      | some none =>
        match insert_client_array a client.id with
        | none => none
        | some (a', _) =>
          some ({ s with sm :=
            (stringmap_add (stringmap_remove s.sm tail).1 tail (some a')).1 }, true)

/-- The fan-out loop of the `pub` branch (lines 361-368): the clients
`a->client[i]`, `i = 0 .. count-1`, in the order they are written to. -/
def pubLoop (client : List Nat) (i : Nat) : Nat → Option (List Nat)
  | 0 => some []
  | fuel + 1 =>
    match client[i]? with
    | none => none
    | some c =>
      match pubLoop client (i + 1) fuel with
      | none => none
      | some cs => some (c :: cs)

/-- The `pub` branch of `client_thread` (lines 338-371).  The loop calls
`fprintf(c->fileWrite, ...)` for every slot it reads, whatever has become of the
client `c`; when the thread of `c` has closed that stream (line 409) the call has
no defined behaviour, and the result is `none`. -/
def pub_branch (s : Server) (client : Client) (tail : Option CString) :
    Option (Server × Bool) :=
  match tail with
  | none => some (fprintf s client.id invalidLine, false)
  | some t =>
    if strlen t = 0 then some (fprintf s client.id invalidLine, false)
    else
      match client.name with
      | none => some (s, false)
      | some name =>
        let pubSplit := split_by_char t ' ' 2
        match pubSplit[1]? with
        | none => some (fprintf s client.id invalidLine, false)
        | some payload =>
          if strlen payload = 0 then some (fprintf s client.id invalidLine, false)
          else
            let topic := pubSplit.headD []
            match stringmap_search s.sm (some topic) with
            | none => some (s, true)
            | some a =>
              match pubLoop a.client 0 a.count with
              | none => none
              | some cs =>
                if cs.all s.streamOpen then
                  some ({ s with out :=
                    s.out ++ cs.map (fun c => (c, pubLine name topic payload)) }, true)
                else none

/-- The `unsub` branch of `client_thread` (lines 372-394). -/
def unsub_branch (s : Server) (client : Client) (tail : Option CString) :
    Option (Server × Bool) :=
  if client.name = none then some (s, false)
  else
    match stringmap_search s.sm tail with
    | none => some (s, true)
    | some a =>
      match findClient a.client client.id 0 a.count with
      | none => none
      | some none => some (s, true)
      | some (some _) =>
        match delete_client a client.id with
        | none => none
        | some a' =>
          some ({ s with sm :=
            (stringmap_add (stringmap_remove s.sm tail).1 tail (some a')).1 }, true)

/-- The function `release_lock`: `sem_post`. -/
def release_lock (s : Server) : Server := { s with guard := s.guard + 1 }

/-- The function `take_lock`: `sem_wait`, which can return only when the
semaphore is positive. -/
def take_lock (s : Server) : Option Server :=
  if 0 < s.guard then some { s with guard := s.guard - 1 } else none

/-- One pass through the body of the `while` loop of `client_thread` (lines
295-402) for the line `clientLine` read by the thread of `client`, up to but not
including `release_lock`. -/
def client_thread_body (s : Server) (client : Client) (clientLine : CString) :
    Option (Server × Bool) :=
  let inputSplit := split_by_char clientLine ' ' 2
  let verb := inputSplit.headD []
  let tail := inputSplit[1]?
  if verb = verbName then some (name_branch s client tail, true)
  else if verb = verbSub then sub_branch s client tail
  else if verb = verbPub then pub_branch s client tail
  else if verb = verbUnsub then unsub_branch s client tail
  else some (fprintf s client.id invalidLine, true)

/-- One pass through the loop body, `release_lock` at its end included. -/
def client_thread_line (s : Server) (client : Client) (clientLine : CString) :
    Option Server :=
  match client_thread_body s client clientLine with
  | none => none
  | some (s', true) => some (release_lock s')
  | some (s', false) => some s'

/-- The end of `client_thread` (lines 403-410), run when `read_line` returns
NULL.  When `stringmap_iterate(sm, NULL)` yields an entry, the two streams are
closed and nothing else happens.  Otherwise there is no defined successor: the
slot read was never written, and on a NULL result the map shared with the other
threads would be freed. -/
def client_thread_eof (s : Server) (client : Client) : Option Server :=
  match stringmap_iterate s.sm none with
  | some (some _) => some (s.setClient { client with closed := true })
  | _ => none

/-- One iteration of the accept loop of `process_connections` (lines 245-273): a
new `Client` with the next id.  The struct comes from `malloc`, and no line of
the loop assigns `client->name`, which the handler later tests against NULL: the
field holds what the allocator left there.  That value is the argument `name`:
`none` when the field reads as NULL, `some g` when it reads as a pointer, to the
characters `g`. -/
def process_connections (s : Server) (name : Option CString) : Server :=
  { s with
    clientCount := s.clientCount + 1,
    clients := s.clients ++
      [{ id := s.clientCount + 1, name := name, active := true,
         started := false, closed := false }] }

/-- What can happen next in the server. -/
inductive Event where
  | accept : Option CString → Event
  | start : Nat → Event
  | line : Nat → CString → Event
  | eof : Nat → Event
deriving DecidableEq

/-- The step function of the server.  `accept name`: the main thread accepts a
connection, and the field `client->name` of the new struct holds `name`.  `start id`: the thread of client `id` passes `take_lock`.
`line id l`: that thread reads the line `l` (which `read_line` delivers without
its newline) and runs the loop body.  `eof id`: `read_line` returns NULL and the
thread runs the end of `client_thread`.  `none`: the event cannot happen in this
state, or the code has no defined behaviour there. -/
def step (s : Server) : Event → Option Server
  | Event.accept name => some (process_connections s name)
  | Event.start id =>
    match s.getClient id with
    | none => none
    | some c =>
      if c.started then none
      else
        match take_lock s with
        | none => none
        | some s' => some (s'.setClient { c with started := true })
  | Event.line id l =>
    match s.getClient id with
    | none => none
    | some c =>
      if c.started ∧ ¬ c.closed ∧ '\n' ∉ l then client_thread_line s c l else none
  | Event.eof id =>
    match s.getClient id with
    | none => none
    | some c =>
      if c.started ∧ ¬ c.closed then client_thread_eof s c else none

/-- Run a sequence of events. -/
def run (s : Server) : List Event → Option Server
  | [] => some s
  | e :: es =>
    match step s e with
    | none => none
    | some s' => run s' es

/-- The states the server can be in: those reached from the initial state by
some sequence of events. -/
def Reachable (s : Server) : Prop := ∃ es : List Event, run Server.init es = some s

/-! ## Predicates used in the statements -/

/-- The index discipline of a `ClientArray`: the slots read by the loops over
`count` have been written, and the written slots lie inside the allocation. -/
def ArrWF (a : ClientArray) : Prop :=
  a.count ≤ a.client.length ∧ a.client.length ≤ a.size ∧ 0 < a.size

/-- A valid string in the sense of the spec: non-empty, without space, colon
or newline. -/
def ValidString (n : CString) : Prop :=
  n ≠ [] ∧ ' ' ∉ n ∧ ':' ∉ n ∧ '\n' ∉ n

/-- The invariant of the reachable states: every array of the index obeys the
index discipline, and the clients carry pairwise different ids, none above
`clientCount`. -/
def Inv (s : Server) : Prop :=
  (∀ e ∈ s.sm.entries, ArrWF e.item) ∧
  (∀ c ∈ s.clients, c.id ≤ s.clientCount) ∧
  (s.clients.map (fun c => c.id)).Nodup

/-- Every connection that a subscriber list of the index names can still be
written to: none of them has closed its stream. -/
def Server.listedOpen (s : Server) : Prop :=
  ∀ e ∈ s.sm.entries, ∀ r ∈ e.item.subscribers, s.streamOpen r = true

instance (s : Server) : Decidable s.listedOpen :=
  inferInstanceAs
    (Decidable (∀ e ∈ s.sm.entries, ∀ r ∈ e.item.subscribers, s.streamOpen r = true))

/-- The tail of a line of the form `name <tail>` whose tail is a valid string
(the line is the text `name`, one space, and the tail), as the spec words it;
`none` for every other line. -/
def acceptedName (l : CString) : Option CString :=
  if l.take 5 = ['n', 'a', 'm', 'e', ' '] then
    (if l.drop 5 ≠ [] ∧ ' ' ∉ l.drop 5 ∧ ':' ∉ l.drop 5 ∧ '\n' ∉ l.drop 5
      then some (l.drop 5) else none)
  else none

/-- The tail of the first accepted `name` line among the lines that the
connection `id` sends in a sequence of events. -/
def firstName (id : Nat) : List Event → Option CString
  | [] => none
  | Event.line i l :: es =>
    if i = id then
      match acceptedName l with
      | some t => some t
      | none => firstName id es
    else firstName id es
  | _ :: es => firstName id es

/-- What the field `client->name` of the connection `id` held when the
connection was accepted, in a sequence of events that begins where `clientCount`
connections have been accepted (the next one gets the id `clientCount + 1`);
`none` when the sequence does not accept the connection `id`. -/
def nameAtAccept (clientCount id : Nat) : List Event → Option (Option CString)
  | [] => none
  | Event.accept name :: es =>
    if clientCount + 1 = id then some name else nameAtAccept (clientCount + 1) id es
  | _ :: es => nameAtAccept clientCount id es

/-- The display name of the connection `id` in a state (`none`: no such
connection, or its name is not set). -/
def Server.nameOf (s : Server) (id : Nat) : Option CString :=
  match s.getClient id with
  | some c => c.name
  | none => none

/-- The line made of a verb and a tail: the verb alone when the tail is missing,
otherwise the verb, one space and the tail. -/
def lineOf (verb : CString) (tail : Option CString) : CString :=
  match tail with
  | none => verb
  | some t => verb ++ ' ' :: t

/-- The writes made between a state and a later one: what was added to `out`. -/
def newWrites (s s' : Server) : List (Nat × CString) := s'.out.drop s.out.length

/-! ## psclient.c -/

/-- The function `is_valid_string` of psclient.c (lines 126-131), the client's
copy: the same body as the server's. -/
def PSClient.is_valid_string (s : CString) : Nat :=
  if strchr s ' ' || strchr s ':' || strchr s '\n' then 0 else 1

/-! ## stringmap.c: calls with a possibly NULL map, and maps built by calls -/

/-- The function `stringmap_search` called with a map pointer that may be NULL
(`none`): the guard `sm == NULL` returns NULL. -/
def stringmap_search_ptr {α : Type} (sm : Option (StringMap α)) (key : Option CString) :
    Option α :=
  match sm with
  | none => none
  | some m => stringmap_search m key

/-- The function `stringmap_add` called with a map pointer that may be NULL: the
map after the call and the returned int. -/
def stringmap_add_ptr {α : Type} (sm : Option (StringMap α)) (key : Option CString)
    (item : Option α) : Option (StringMap α) × Nat :=
  match sm with
  | none => (none, 0)
  | some m => (some (stringmap_add m key item).1, (stringmap_add m key item).2)

/-- The function `stringmap_remove` called with a map pointer that may be NULL:
the map after the call and the returned int. -/
def stringmap_remove_ptr {α : Type} (sm : Option (StringMap α)) (key : Option CString) :
    Option (StringMap α) × Nat :=
  match sm with
  | none => (none, 0)
  | some m => (some (stringmap_remove m key).1, (stringmap_remove m key).2)

/-- A call that changes a map: `stringmap_add(sm, key, item)` or
`stringmap_remove(sm, key)`. -/
inductive MapOp (α : Type) where
  | add : Option CString → Option α → MapOp α
  | remove : Option CString → MapOp α

/-- The map after one call. -/
def StringMap.apply {α : Type} (m : StringMap α) : MapOp α → StringMap α
  | MapOp.add key item => (stringmap_add m key item).1
  | MapOp.remove key => (stringmap_remove m key).1

/-- The map built from `stringmap_init()` by a sequence of calls. -/
def StringMap.build {α : Type} (ops : List (MapOp α)) : StringMap α :=
  ops.foldl StringMap.apply stringmap_init

/-- The well-formed maps: `count` is the number of stored entries and no two
entries have the same key. -/
def StringMap.WF {α : Type} (m : StringMap α) : Prop :=
  m.sm.length = m.count ∧ (m.sm.map (fun e => e.key)).Nodup

/-! ## psserver.c: main and sig_thread -/

/-- The test `isdigit(c)`. -/
def isdigit (c : Char) : Bool := decide ('0' ≤ c ∧ c ≤ '9')

/-- The test `isdigit(s[0])`; the first character of the empty string is the
terminating NUL, which is no digit. -/
def firstIsDigit (s : CString) : Bool :=
  match s with
  | [] => false
  | c :: _ => isdigit c

/-- The test `isspace(c)` of the C locale. -/
def isspace (c : Char) : Bool :=
  decide (c = ' ' ∨ c = '\t' ∨ c = '\n' ∨ c = Char.ofNat 11 ∨ c = Char.ofNat 12 ∨ c = '\r')

/-- The value of the decimal digits a string starts with, continuing from `acc`. -/
def atoiDigits : CString → Nat → Nat
  | [], acc => acc
  | c :: cs, acc =>
    if isdigit c then atoiDigits cs (acc * 10 + (c.toNat - '0'.toNat)) else acc

/-- The largest `int`. -/
def INT_MAX : Int := 2147483647

/-- The library function `atoi`: white space is skipped, then an optional sign
and the decimal digits that follow are converted; `none` when the value does not
fit an `int` (the behaviour is then undefined). -/
def atoi (s : CString) : Option Int :=
  match s.dropWhile isspace with
  | '-' :: r =>
    if (atoiDigits r 0 : Int) ≤ INT_MAX + 1 then some (-(atoiDigits r 0 : Int)) else none
  | '+' :: r =>
    if (atoiDigits r 0 : Int) ≤ INT_MAX then some (atoiDigits r 0 : Int) else none
  | r =>
    if (atoiDigits r 0 : Int) ≤ INT_MAX then some (atoiDigits r 0 : Int) else none

/-- How `main` goes on after it has looked at its arguments: it exits with a
status after writing a text to standard error, or it calls
`open_listen(port, connections)`. -/
inductive MainResult where
  | exit : CString → Nat → MainResult
  | open_listen : CString → Int → MainResult
deriving DecidableEq

/-- The function `print_err`: the usage line on standard error, `exit(1)`. -/
def print_err : MainResult :=
  MainResult.exit "Usage: psserver connections [portnum]\n".toList 1

/-- The argument handling of `main` (lines 120-150), for the argument vector
`argv` (`argc` is its length, `argv[0]` the program name).  `none`: an `atoi`
call has no defined result. -/
def main (argv : List CString) : Option MainResult :=
  if argv.length < 2 ∨ argv.length > 3 then some print_err
  else
    match argv[1]? with
    | none => some print_err
    | some a1 =>
      if firstIsDigit a1 then
        match atoi a1 with
        | none => none
        | some connections =>
          if connections < 0 then some print_err
          else if argv.length = 3 then
            match argv[2]? with
            | none => some print_err
            | some a2 =>
              if firstIsDigit a2 then
                match atoi a2 with
                | none => none
                | some portNum =>
                  if (portNum < 1024 ∨ portNum > 65535) ∧ portNum ≠ 0 then some print_err
                  else some (MainResult.open_listen a2 connections)
              else some print_err
          else some (MainResult.open_listen ['0'] connections)
      else some print_err

/-- The state in which `process_connections` enters its accept loop when `main`
was given the argument `connections`.  `main` passes the value to `open_listen`
only, whose body does not use it, and `process_connections(fdServer)` does not
receive it: the state is the same for every value. -/
def Server.start : Int → Server
  | _ => Server.init

/-- The number of connections that are named and still connected. -/
def Server.namedConnected (s : Server) : Nat :=
  (s.clients.filter (fun c => c.name.isSome && !c.closed)).length

/-- A call that changes a `ClientArray`: `insert_client_array(a, element)`,
`remove_client(a, index)` or `delete_client(a, element)`. -/
inductive ArrOp where
  | insert : Nat → ArrOp
  | remove : Int → ArrOp
  | delete : Nat → ArrOp
deriving DecidableEq

/-- The array after one call (`none`: the call has no defined result). -/
def ClientArray.apply (a : ClientArray) : ArrOp → Option ClientArray
  | ArrOp.insert element =>
    match insert_client_array a element with
    | none => none
    | some (a', _) => some a'
  | ArrOp.remove index => remove_client a index
  | ArrOp.delete element => delete_client a element

/-- The array after a sequence of calls. -/
def ClientArray.applyAll (a : ClientArray) : List ArrOp → Option ClientArray
  | [] => some a
  | op :: ops =>
    match a.apply op with
    | none => none
    | some a' => a'.applyAll ops

/-- The array built from `init_client_array(a, initialSize)` by a sequence of
calls. -/
def ClientArray.build (initialSize : Nat) (ops : List ArrOp) : Option ClientArray :=
  (init_client_array initialSize).applyAll ops

/-- A string made only of decimal digits, at least one. -/
def IsNumeral (s : CString) : Prop := s ≠ [] ∧ ∀ c ∈ s, '0' ≤ c ∧ c ≤ '9'

/-- The number that a string of decimal digits denotes. -/
def decimalValue (s : CString) : Nat :=
  s.foldl (fun acc c => 10 * acc + (c.toNat - '0'.toNat)) 0

/-! ## Lemmas: the decoder -/

theorem split_by_char_one (s : CString) (c : Char) : split_by_char s c 1 = [s] := by
  induction s with
  | nil => rfl
  | cons x xs ih => simp [split_by_char, ih]

theorem split_by_char_not_mem (s : CString) (c : Char) (n : Nat) (h : c ∉ s) :
    split_by_char s c n = [s] := by
  induction s with
  | nil => rfl
  | cons x xs ih =>
    have hx : x ≠ c := fun e => h (by simp [e])
    have hxs : c ∉ xs := fun e => h (by simp [e])
    simp [split_by_char, hx, ih hxs]

theorem split_by_char_two (a b : CString) (c : Char) (h : c ∉ a) :
    split_by_char (a ++ c :: b) c 2 = [a, b] := by
  induction a with
  | nil => simp [split_by_char, split_by_char_one]
  | cons x xs ih =>
    have hx : x ≠ c := fun e => h (by simp [e])
    have hxs : c ∉ xs := fun e => h (by simp [e])
    simp [split_by_char, hx, ih hxs]

theorem split_by_char_cases (l : CString) (c : Char) :
    (c ∉ l ∧ split_by_char l c 2 = [l]) ∨
    (∃ a b, l = a ++ c :: b ∧ c ∉ a ∧ split_by_char l c 2 = [a, b]) := by
  induction l with
  | nil => left; exact ⟨by simp, rfl⟩
  | cons x xs ih =>
    by_cases hx : x = c
    · right
      refine ⟨[], xs, by simp [hx], by simp, ?_⟩
      subst hx
      simpa using split_by_char_two [] xs x (by simp)
    · rcases ih with ⟨h1, _⟩ | ⟨a, b, h1, h2, _⟩
      · left
        have : c ∉ x :: xs := by
          intro h; rcases List.mem_cons.1 h with h | h
          · exact hx h.symm
          · exact h1 h
        exact ⟨this, split_by_char_not_mem _ _ _ this⟩
      · right
        have : c ∉ x :: a := by
          intro h; rcases List.mem_cons.1 h with h | h
          · exact hx h.symm
          · exact h2 h
        refine ⟨x :: a, b, by simp [h1], this, ?_⟩
        rw [h1]
        exact split_by_char_two (x :: a) b c this

/-! ## Lemmas: ClientArray -/

theorem findClient_defined (client : List Nat) (x : Nat) :
    ∀ (fuel i : Nat), i + fuel ≤ client.length → ∃ r, findClient client x i fuel = some r := by
  intro fuel
  induction fuel with
  | zero => intro i _; exact ⟨none, rfl⟩
  | succ n ih =>
    intro i h
    have hi : i < client.length := by omega
    simp only [findClient, List.getElem?_eq_getElem hi]
    by_cases hc : client[i] = x
    · simp [hc]
    · simp only [hc, if_false]
      exact ih (i + 1) (by omega)

theorem findClient_lt (client : List Nat) (x : Nat) :
    ∀ (fuel i j : Nat), findClient client x i fuel = some (some j) → i ≤ j ∧ j < i + fuel := by
  intro fuel
  induction fuel with
  | zero => intro i j h; simp [findClient] at h
  | succ n ih =>
    intro i j h
    simp only [findClient] at h
    cases hg : client[i]? with
    | none => simp [hg] at h
    | some c =>
      simp only [hg] at h
      by_cases hc : c = x
      · simp [hc] at h; omega
      · simp only [hc, if_false] at h
        have := ih (i + 1) j h
        omega

theorem pubLoop_eq (client : List Nat) :
    ∀ (fuel i : Nat), i + fuel ≤ client.length →
      pubLoop client i fuel = some ((client.drop i).take fuel) := by
  intro fuel
  induction fuel with
  | zero => intro i _; simp [pubLoop]
  | succ n ih =>
    intro i h
    have hi : i < client.length := by omega
    simp only [pubLoop, List.getElem?_eq_getElem hi, ih (i + 1) (by omega)]
    conv_rhs => rw [List.drop_eq_getElem_cons hi]
    rfl

theorem shiftLoop_defined :
    ∀ (fuel : Nat) (client : List Nat) (i : Nat), i + fuel < client.length →
      ∃ r, shiftLoop client i fuel = some r ∧ r.length = client.length := by
  intro fuel
  induction fuel with
  | zero => intro client i _; exact ⟨client, rfl, rfl⟩
  | succ n ih =>
    intro client i h
    have hi : i + 1 < client.length := by omega
    simp only [shiftLoop, List.getElem?_eq_getElem hi]
    obtain ⟨r, h1, h2⟩ := ih (client.set i client[i + 1]) (i + 1) (by simp; omega)
    exact ⟨r, h1, by simpa using h2⟩

theorem init_client_array_wf : ArrWF (init_client_array 1) := by
  simp [ArrWF, init_client_array]

theorem insert_client_array_wf (a : ClientArray) (x : Nat) (h : ArrWF a) :
    ∃ a' r, insert_client_array a x = some (a', r) ∧ ArrWF a' := by
  obtain ⟨h1, h2, h3⟩ := h
  obtain ⟨r, hr⟩ := findClient_defined a.client x a.count 0 (by omega)
  unfold insert_client_array
  rw [hr]
  cases r with
  | some j => exact ⟨a, 0, rfl, h1, h2, h3⟩
  | none =>
    simp only [ClientArray.used]
    by_cases hu : a.client.length = a.size
    · have : a.client.length < a.size * 2 := by omega
      simp only [hu, if_true]
      rw [hu] at this
      simp only [this, if_true]
      refine ⟨_, 1, rfl, ?_⟩
      simp only [ArrWF, List.length_append, List.length_singleton]
      omega
    · have : a.client.length < a.size := by omega
      simp only [hu, if_false, this, if_true]
      refine ⟨_, 1, rfl, ?_⟩
      simp only [ArrWF, List.length_append, List.length_singleton]
      omega

theorem remove_client_wf (a : ClientArray) (i : Nat) (h : ArrWF a) :
    ∃ a', remove_client a (i : Int) = some a' ∧ ArrWF a' := by
  obtain ⟨h1, h2, h3⟩ := h
  unfold remove_client
  by_cases hi : (i : Int) < 0 ∨ (i : Int) ≥ (a.count : Int)
  · simp only [hi, if_true]; exact ⟨a, rfl, h1, h2, h3⟩
  · simp only [hi, if_false, Int.toNat_ofNat]
    have hlt : i < a.count := by omega
    obtain ⟨r, hr1, hr2⟩ := shiftLoop_defined (a.count - 1 - i) a.client i (by omega)
    rw [hr1]
    refine ⟨_, rfl, ?_⟩
    simp only [ArrWF, hr2]
    omega

theorem delete_client_wf (a : ClientArray) (x : Nat) (h : ArrWF a) :
    ∃ a', delete_client a x = some a' ∧ ArrWF a' := by
  obtain ⟨r, hr⟩ := findClient_defined a.client x a.count 0 (by have := h.1; omega)
  unfold delete_client
  rw [hr]
  cases r with
  | none => exact ⟨a, rfl, h⟩
  | some j => exact remove_client_wf a j h

/-! ## Lemmas: StringMap -/

theorem searchLoop_mem {α : Type} (k : CString) :
    ∀ (es : List (StringMapItem α)) (a : α), searchLoop k es = some a →
      ∃ e ∈ es, e.key = k ∧ e.item = a := by
  intro es
  induction es with
  | nil => intro a h; simp [searchLoop] at h
  | cons e es ih =>
    intro a h
    simp only [searchLoop] at h
    by_cases hk : e.key = k
    · simp only [hk, if_true, Option.some.injEq] at h
      exact ⟨e, by simp, hk, h⟩
    · simp only [hk, if_false] at h
      obtain ⟨e', h1, h2⟩ := ih a h
      exact ⟨e', by simp [h1], h2⟩

theorem stringmap_search_mem {α : Type} (m : StringMap α) (k : Option CString) (a : α)
    (h : stringmap_search m k = some a) : ∃ e ∈ m.entries, some e.key = k ∧ e.item = a := by
  cases k with
  | none => simp [stringmap_search] at h
  | some k =>
    obtain ⟨e, h1, h2, h3⟩ := searchLoop_mem k m.entries a h
    exact ⟨e, h1, by simp [h2], h3⟩

theorem removeLoop_mem {α : Type} (k : CString) :
    ∀ (es es' : List (StringMapItem α)), removeLoop k es = some es' → ∀ e ∈ es', e ∈ es := by
  intro es
  induction es with
  | nil => intro es' h; simp [removeLoop] at h
  | cons x xs ih =>
    intro es' h e he
    simp only [removeLoop] at h
    by_cases hk : x.key = k
    · simp only [hk, if_true, Option.some.injEq] at h
      subst h
      exact List.mem_cons_of_mem _ he
    · simp only [hk, if_false] at h
      cases hr : removeLoop k xs with
      | none => simp [hr] at h
      | some ys =>
        simp only [hr, Option.some.injEq] at h
        subst h
        rcases List.mem_cons.1 he with h1 | h1
        · simp [h1]
        · exact List.mem_cons_of_mem _ (ih ys hr e h1)

theorem stringmap_remove_mem {α : Type} (m : StringMap α) (k : Option CString) :
    ∀ e ∈ (stringmap_remove m k).1.entries, e ∈ m.entries := by
  intro e he
  cases k with
  | none => simpa [stringmap_remove] using he
  | some k =>
    simp only [stringmap_remove] at he
    cases hr : removeLoop k m.entries with
    | none => simpa [hr] using he
    | some es =>
      simp only [hr] at he
      exact removeLoop_mem k _ _ hr e (List.mem_of_mem_take he)

theorem stringmap_add_mem {α : Type} (m : StringMap α) (k : Option CString) (it : Option α) :
    ∀ e ∈ (stringmap_add m k it).1.entries, e ∈ m.entries ∨ some e.item = it := by
  intro e he
  cases k with
  | none => left; simpa [stringmap_add] using he
  | some k =>
    cases it with
    | none => left; simpa [stringmap_add] using he
    | some a =>
      simp only [stringmap_add] at he
      cases hs : stringmap_search m (some k) with
      | some _ => left; simpa [hs] using he
      | none =>
        simp only [hs] at he
        have := List.mem_of_mem_take he
        rcases List.mem_append.1 this with h1 | h1
        · left; exact h1
        · right; simp at h1; simp [h1]

/-! ## Lemmas: the branches of the handler -/

theorem sub_branch_frame (s : Server) (c : Client) (tail : Option CString) (s' : Server)
    (b : Bool) (h : sub_branch s c tail = some (s', b)) :
    s'.clients = s.clients ∧ s'.out = s.out ∧ s'.statistics = s.statistics ∧
      s'.clientCount = s.clientCount ∧ s'.guard = s.guard := by
  unfold sub_branch at h
  repeat' split at h
  all_goals cases h
  all_goals simp

theorem unsub_branch_frame (s : Server) (c : Client) (tail : Option CString) (s' : Server)
    (b : Bool) (h : unsub_branch s c tail = some (s', b)) :
    s'.clients = s.clients ∧ s'.out = s.out ∧ s'.statistics = s.statistics ∧
      s'.clientCount = s.clientCount ∧ s'.guard = s.guard := by
  unfold unsub_branch at h
  repeat' split at h
  all_goals cases h
  all_goals simp

theorem sub_branch_wf (s : Server) (c : Client) (tail : Option CString)
    (hwf : ∀ e ∈ s.sm.entries, ArrWF e.item) :
    ∃ s' b, sub_branch s c tail = some (s', b) ∧ ∀ e ∈ s'.sm.entries, ArrWF e.item := by
  unfold sub_branch
  by_cases hn : c.name = none
  · simp only [hn, if_true]; exact ⟨s, false, rfl, hwf⟩
  · simp only [hn, if_false]
    cases hs : stringmap_search s.sm tail with
    | none =>
      obtain ⟨a', r, h1, h2⟩ := insert_client_array_wf _ c.id init_client_array_wf
      simp only [h1]
      refine ⟨_, true, rfl, ?_⟩
      intro e he
      rcases stringmap_add_mem _ _ _ e he with h3 | h3
      · exact hwf e h3
      · simp only [Option.some.injEq] at h3; rw [h3]; exact h2
    | some a =>
      obtain ⟨e0, he0, _, h0⟩ := stringmap_search_mem _ _ _ hs
      have hwa : ArrWF a := h0 ▸ hwf e0 he0
      obtain ⟨r, hr⟩ := findClient_defined a.client c.id a.count 0 (by have := hwa.1; omega)
      simp only [hr]
      cases r with
      | some j => exact ⟨s, true, rfl, hwf⟩
      | none =>
        obtain ⟨a', r, h1, h2⟩ := insert_client_array_wf a c.id hwa
        simp only [h1]
        refine ⟨_, true, rfl, ?_⟩
        intro e he
        rcases stringmap_add_mem _ _ _ e he with h3 | h3
        · exact hwf e (stringmap_remove_mem _ _ e h3)
        · simp only [Option.some.injEq] at h3; rw [h3]; exact h2

theorem unsub_branch_wf (s : Server) (c : Client) (tail : Option CString)
    (hwf : ∀ e ∈ s.sm.entries, ArrWF e.item) :
    ∃ s' b, unsub_branch s c tail = some (s', b) ∧ ∀ e ∈ s'.sm.entries, ArrWF e.item := by
  unfold unsub_branch
  by_cases hn : c.name = none
  · simp only [hn, if_true]; exact ⟨s, false, rfl, hwf⟩
  · simp only [hn, if_false]
    cases hs : stringmap_search s.sm tail with
    | none => exact ⟨s, true, rfl, hwf⟩
    | some a =>
      obtain ⟨e0, he0, _, h0⟩ := stringmap_search_mem _ _ _ hs
      have hwa : ArrWF a := h0 ▸ hwf e0 he0
      obtain ⟨r, hr⟩ := findClient_defined a.client c.id a.count 0 (by have := hwa.1; omega)
      simp only [hr]
      cases r with
      | none => exact ⟨s, true, rfl, hwf⟩
      | some j =>
        obtain ⟨a', h1, h2⟩ := delete_client_wf a c.id hwa
        simp only [h1]
        refine ⟨_, true, rfl, ?_⟩
        intro e he
        rcases stringmap_add_mem _ _ _ e he with h3 | h3
        · exact hwf e (stringmap_remove_mem _ _ e h3)
        · simp only [Option.some.injEq] at h3; rw [h3]; exact h2

theorem pub_branch_cases (s : Server) (c : Client) (tail : Option CString) (s' : Server)
    (b : Bool) (h : pub_branch s c tail = some (s', b)) :
    (s' = fprintf s c.id invalidLine ∧ b = false) ∨
    (s' = s ∧ c.name = none ∧ b = false) ∨
    (∃ name topic payload cs, c.name = some name ∧ b = true ∧
      s' = { s with out := s.out ++ List.map (fun r => (r, pubLine name topic payload)) cs }) := by
  unfold pub_branch at h
  cases tail with
  | none => simp only at h; cases h; left; exact ⟨rfl, rfl⟩
  | some t =>
    simp only at h
    by_cases ht : strlen t = 0
    · simp only [ht, if_true] at h; cases h; left; exact ⟨rfl, rfl⟩
    · simp only [ht, if_false] at h
      cases hn : c.name with
      | none => simp only [hn] at h; cases h; right; left; exact ⟨rfl, rfl, rfl⟩
      | some name =>
        simp only [hn] at h
        cases hp : (split_by_char t ' ' 2)[1]? with
        | none => simp only [hp] at h; cases h; left; exact ⟨rfl, rfl⟩
        | some payload =>
          simp only [hp] at h
          by_cases hl : strlen payload = 0
          · simp only [hl, if_true] at h; cases h; left; exact ⟨rfl, rfl⟩
          · simp only [hl, if_false] at h
            cases hs : stringmap_search s.sm (some ((split_by_char t ' ' 2).headD [])) with
            | none =>
              simp only [hs] at h; cases h; right; right
              exact ⟨name, [], [], [], rfl, rfl, by simp⟩
            | some a =>
              simp only [hs] at h
              cases hq : pubLoop a.client 0 a.count with
              | none => simp [hq] at h
              | some cs =>
                simp only [hq] at h
                by_cases ho : cs.all s.streamOpen = true
                · rw [if_pos ho] at h; cases h; right; right
                  exact ⟨name, _, payload, cs, rfl, rfl, rfl⟩
                · rw [if_neg ho] at h; cases h

theorem pub_branch_frame (s : Server) (c : Client) (tail : Option CString) (s' : Server)
    (b : Bool) (h : pub_branch s c tail = some (s', b)) :
    s'.clients = s.clients ∧ s'.sm = s.sm ∧ s'.statistics = s.statistics ∧
      s'.clientCount = s.clientCount ∧ s'.guard = s.guard := by
  rcases pub_branch_cases s c tail s' b h with ⟨h1, _⟩ | ⟨h1, _⟩ | ⟨_, _, _, _, _, _, h1⟩ <;>
    subst h1 <;> simp [fprintf]

theorem pubLoop_subscribers (a : ClientArray) (h : a.count ≤ a.client.length) :
    pubLoop a.client 0 a.count = some a.subscribers := by
  rw [pubLoop_eq a.client a.count 0 (by omega)]
  simp [ClientArray.subscribers]

theorem pub_branch_wf (s : Server) (c : Client) (tail : Option CString)
    (hwf : ∀ e ∈ s.sm.entries, ArrWF e.item)
    (hopen : s.listedOpen) :
    ∃ s' b, pub_branch s c tail = some (s', b) := by
  unfold pub_branch
  cases tail with
  | none => exact ⟨_, _, rfl⟩
  | some t =>
    simp only
    by_cases ht : strlen t = 0
    · simp only [ht, if_true]; exact ⟨_, _, rfl⟩
    · simp only [ht, if_false]
      cases hn : c.name with
      | none => exact ⟨_, _, rfl⟩
      | some name =>
        simp only
        cases hp : (split_by_char t ' ' 2)[1]? with
        | none => exact ⟨_, _, rfl⟩
        | some payload =>
          simp only
          by_cases hl : strlen payload = 0
          · simp only [hl, if_true]; exact ⟨_, _, rfl⟩
          · simp only [hl, if_false]
            cases hs : stringmap_search s.sm (some ((split_by_char t ' ' 2).headD [])) with
            | none => exact ⟨_, _, rfl⟩
            | some a =>
              obtain ⟨e0, he0, _, h0⟩ := stringmap_search_mem _ _ _ hs
              have hwa : ArrWF a := h0 ▸ hwf e0 he0
              have hoa : ∀ r ∈ a.subscribers, s.streamOpen r = true := h0 ▸ hopen e0 he0
              simp only [pubLoop_subscribers a hwa.1]
              rw [if_pos (List.all_eq_true.2 hoa)]
              exact ⟨_, _, rfl⟩

theorem name_branch_frame (s : Server) (c : Client) (tail : Option CString) :
    (name_branch s c tail).sm = s.sm ∧ (name_branch s c tail).statistics = s.statistics ∧
      (name_branch s c tail).clientCount = s.clientCount ∧
      (name_branch s c tail).guard = s.guard := by
  unfold name_branch
  repeat' split
  all_goals simp [fprintf, Server.setClient]

theorem is_valid_string_ne_zero (t : CString) :
    (strlen t ≠ 0 ∧ is_valid_string t ≠ 0) ↔ ValidString t := by
  simp only [strlen, is_valid_string, strchr, ValidString]
  constructor
  · rintro ⟨h1, h2⟩
    refine ⟨fun h => h1 (by simp [h]), ?_⟩
    by_contra hc
    apply h2
    rw [if_pos]
    simp only [Bool.or_eq_true, decide_eq_true_eq]
    tauto
  · rintro ⟨h1, h2, h3, h4⟩
    refine ⟨fun h => h1 (List.length_eq_zero.1 h), ?_⟩
    simp [h2, h3, h4]

theorem acceptedName_valid (l t : CString) (h : acceptedName l = some t) : ValidString t := by
  unfold acceptedName at h
  split at h
  · split at h
    · rename_i h2; cases h; exact h2
    · cases h
  · cases h

theorem acceptedName_iff (l t : CString) :
    acceptedName l = some t ↔
      ((split_by_char l ' ' 2).headD [] = verbName ∧ (split_by_char l ' ' 2)[1]? = some t ∧
        strlen t ≠ 0 ∧ is_valid_string t ≠ 0) := by
  rw [is_valid_string_ne_zero]
  rcases split_by_char_cases l ' ' with ⟨h1, h2⟩ | ⟨a, b, h1, h2, h3⟩
  · rw [h2]
    have hnone : ([l] : List CString)[1]? = none := rfl
    simp only [hnone, false_and, and_false, iff_false, reduceCtorEq]
    intro h
    unfold acceptedName at h
    split at h
    · rename_i h5
      apply h1
      have : ' ' ∈ l.take 5 := by rw [h5]; simp
      exact List.mem_of_mem_take this
    · cases h
  · rw [h3]
    simp only [List.headD_cons, List.getElem?_cons_succ, List.getElem?_cons_zero,
      Option.some.injEq]
    subst h1
    constructor
    · intro h
      have hv := acceptedName_valid _ _ h
      unfold acceptedName at h
      split at h
      · rename_i h5
        have ha : a = verbName := by
          rcases a with _ | ⟨x0, _ | ⟨x1, _ | ⟨x2, _ | ⟨x3, _ | ⟨x4, r⟩⟩⟩⟩⟩
          all_goals simp at h5
          · simp [verbName, h5]
          · exfalso; apply h2; simp [h5]
        subst ha
        split at h
        · simp [verbName] at h
          exact ⟨rfl, h, hv⟩
        · cases h
      · cases h
    · rintro ⟨ha, hb, hv⟩
      subst ha hb
      simp only [acceptedName, verbName, List.cons_append, List.nil_append, List.take_succ_cons,
        List.take_zero, if_true, List.drop_succ_cons, List.drop_zero]
      exact if_pos hv

theorem name_branch_cases (s : Server) (c : Client) (tail : Option CString) :
    (name_branch s c tail = fprintf s c.id invalidLine ∧
      ¬ ∃ t, tail = some t ∧ strlen t ≠ 0 ∧ is_valid_string t ≠ 0) ∨
    (∃ t, tail = some t ∧ (strlen t ≠ 0 ∧ is_valid_string t ≠ 0) ∧
      name_branch s c tail =
        if c.name = none then s.setClient { c with name := some t } else s) := by
  unfold name_branch
  cases tail with
  | none => left; simp
  | some t =>
    by_cases hv : strlen t ≠ 0 ∧ is_valid_string t ≠ 0
    · right; exact ⟨t, rfl, hv, if_pos hv⟩
    · left
      refine ⟨if_neg hv, ?_⟩
      rintro ⟨t', h1, h2⟩
      cases h1
      exact hv h2

theorem client_thread_body_cases (s : Server) (c : Client) (l : CString) (s' : Server)
    (b : Bool) (h : client_thread_body s c l = some (s', b)) :
    ((split_by_char l ' ' 2).headD [] = verbName ∧
      s' = name_branch s c (split_by_char l ' ' 2)[1]? ∧ b = true) ∨
    ((split_by_char l ' ' 2).headD [] ≠ verbName ∧
      (sub_branch s c (split_by_char l ' ' 2)[1]? = some (s', b) ∨
       pub_branch s c (split_by_char l ' ' 2)[1]? = some (s', b) ∨
       unsub_branch s c (split_by_char l ' ' 2)[1]? = some (s', b) ∨
       (s' = fprintf s c.id invalidLine ∧ b = true))) := by
  unfold client_thread_body at h
  simp only at h
  by_cases h1 : (split_by_char l ' ' 2).headD [] = verbName
  · simp only [h1, if_true] at h; cases h; left; exact ⟨h1, rfl, rfl⟩
  · right
    refine ⟨h1, ?_⟩
    simp only [h1, if_false] at h
    by_cases h2 : (split_by_char l ' ' 2).headD [] = verbSub
    · simp only [h2, if_true] at h; left; exact h
    · simp only [h2, if_false] at h
      by_cases h3 : (split_by_char l ' ' 2).headD [] = verbPub
      · simp only [h3, if_true] at h; right; left; exact h
      · simp only [h3, if_false] at h
        by_cases h4 : (split_by_char l ' ' 2).headD [] = verbUnsub
        · simp only [h4, if_true] at h; right; right; left; exact h
        · simp only [h4, if_false] at h; cases h; right; right; right; exact ⟨rfl, rfl⟩

theorem client_thread_body_frame (s : Server) (c : Client) (l : CString) (s' : Server)
    (b : Bool) (h : client_thread_body s c l = some (s', b)) :
    s'.statistics = s.statistics ∧ s'.clientCount = s.clientCount ∧ s'.guard = s.guard := by
  rcases client_thread_body_cases s c l s' b h with ⟨_, h1, _⟩ | ⟨_, h1 | h1 | h1 | ⟨h1, _⟩⟩
  · subst h1
    have := name_branch_frame s c (split_by_char l ' ' 2)[1]?
    exact ⟨this.2.1, this.2.2.1, this.2.2.2⟩
  · have := sub_branch_frame _ _ _ _ _ h1
    exact ⟨this.2.2.1, this.2.2.2.1, this.2.2.2.2⟩
  · have := pub_branch_frame _ _ _ _ _ h1
    exact ⟨this.2.2.1, this.2.2.2.1, this.2.2.2.2⟩
  · have := unsub_branch_frame _ _ _ _ _ h1
    exact ⟨this.2.2.1, this.2.2.2.1, this.2.2.2.2⟩
  · subst h1; simp [fprintf]

theorem client_thread_body_clients (s : Server) (c : Client) (l : CString) (s' : Server)
    (b : Bool) (h : client_thread_body s c l = some (s', b)) :
    s'.clients =
      match c.name, acceptedName l with
      | none, some t => (s.setClient { c with name := some t }).clients
      | _, _ => s.clients := by
  have key : s'.clients = s.clients ∨
      ∃ t, acceptedName l = some t ∧
        s' = if c.name = none then s.setClient { c with name := some t } else s := by
    rcases client_thread_body_cases s c l s' b h with ⟨hv, h1, _⟩ | ⟨_, h1 | h1 | h1 | ⟨h1, _⟩⟩
    · rcases name_branch_cases s c (split_by_char l ' ' 2)[1]? with ⟨h2, _⟩ | ⟨t, h2, h3, h4⟩
      · left; rw [h1, h2]; rfl
      · right
        exact ⟨t, (acceptedName_iff l t).2 ⟨hv, h2, h3⟩, by rw [h1, h4]⟩
    · left; exact (sub_branch_frame _ _ _ _ _ h1).1
    · left; exact (pub_branch_frame _ _ _ _ _ h1).1
    · left; exact (unsub_branch_frame _ _ _ _ _ h1).1
    · left; subst h1; rfl
  have hno : ∀ t, acceptedName l = some t → s'.clients = s.clients →
      c.name = none → False ∨ s'.clients = (s.setClient { c with name := some t }).clients := by
    intro t ht _ hn
    right
    rcases client_thread_body_cases s c l s' b h with ⟨hv, h1, _⟩ | ⟨hv, _⟩
    · rcases name_branch_cases s c (split_by_char l ' ' 2)[1]? with ⟨_, h2⟩ | ⟨t', h2, _, h4⟩
      · exact absurd ⟨t, ((acceptedName_iff l t).1 ht).2⟩ h2
      · have : t' = t := by
          have := ((acceptedName_iff l t).1 ht).2.1
          rw [h2] at this; exact Option.some.inj this
        subst this
        rw [h1, h4, if_pos hn]
    · exact absurd ((acceptedName_iff l t).1 ht).1 hv
  cases hn : c.name with
  | some n =>
    rcases key with h1 | ⟨t, _, h1⟩
    · simpa using h1
    · simp [h1, hn]
  | none =>
    cases ha : acceptedName l with
    | none =>
      rcases key with h1 | ⟨t, h0, _⟩
      · simpa using h1
      · rw [ha] at h0; cases h0
    | some t =>
      rcases key with h1 | ⟨t', h0, h1⟩
      · rcases hno t ha h1 hn with h2 | h2
        · exact h2.elim
        · simpa using h2
      · rw [ha] at h0; cases h0
        simp [h1, hn]

theorem client_thread_body_wf (s : Server) (c : Client) (l : CString) (s' : Server) (b : Bool)
    (hwf : ∀ e ∈ s.sm.entries, ArrWF e.item) (h : client_thread_body s c l = some (s', b)) :
    ∀ e ∈ s'.sm.entries, ArrWF e.item := by
  rcases client_thread_body_cases s c l s' b h with ⟨_, h1, _⟩ | ⟨_, h1 | h1 | h1 | ⟨h1, _⟩⟩
  · rw [h1, (name_branch_frame s c _).1]; exact hwf
  · obtain ⟨s2, b2, h2, h3⟩ := sub_branch_wf s c (split_by_char l ' ' 2)[1]? hwf
    rw [h1] at h2; cases h2; exact h3
  · rw [(pub_branch_frame _ _ _ _ _ h1).2.1]; exact hwf
  · obtain ⟨s2, b2, h2, h3⟩ := unsub_branch_wf s c (split_by_char l ' ' 2)[1]? hwf
    rw [h1] at h2; cases h2; exact h3
  · subst h1; exact hwf

theorem client_thread_body_defined (s : Server) (c : Client) (l : CString)
    (hwf : ∀ e ∈ s.sm.entries, ArrWF e.item) (hopen : s.listedOpen) :
    ∃ s' b, client_thread_body s c l = some (s', b) := by
  unfold client_thread_body
  simp only
  by_cases h1 : (split_by_char l ' ' 2).headD [] = verbName
  · simp only [h1, if_true]; exact ⟨_, _, rfl⟩
  · simp only [h1, if_false]
    by_cases h2 : (split_by_char l ' ' 2).headD [] = verbSub
    · simp only [h2, if_true]
      obtain ⟨s', b, h, _⟩ := sub_branch_wf s c (split_by_char l ' ' 2)[1]? hwf
      exact ⟨s', b, h⟩
    · simp only [h2, if_false]
      by_cases h3 : (split_by_char l ' ' 2).headD [] = verbPub
      · simp only [h3, if_true]
        exact pub_branch_wf s c (split_by_char l ' ' 2)[1]? hwf hopen
      · simp only [h3, if_false]
        by_cases h4 : (split_by_char l ' ' 2).headD [] = verbUnsub
        · simp only [h4, if_true]
          obtain ⟨s', b, h, _⟩ := unsub_branch_wf s c (split_by_char l ' ' 2)[1]? hwf
          exact ⟨s', b, h⟩
        · simp only [h4, if_false]; exact ⟨_, _, rfl⟩

/-! ## Lemmas: the client table and the invariant -/

theorem getClient_mem (s : Server) (id : Nat) (c : Client) (h : s.getClient id = some c) :
    c ∈ s.clients ∧ c.id = id := by
  unfold Server.getClient at h
  exact ⟨List.mem_of_find?_eq_some h, by simpa using List.find?_some h⟩

theorem find_of_nodup (id : Nat) :
    ∀ (cs : List Client) (c : Client), (cs.map (fun d => d.id)).Nodup → c ∈ cs → c.id = id →
      cs.find? (fun d => d.id = id) = some c := by
  intro cs
  induction cs with
  | nil => intro c _ h; simp at h
  | cons x xs ih =>
    intro c hnd hc hid
    simp only [List.map_cons, List.nodup_cons] at hnd
    rcases List.mem_cons.1 hc with h | h
    · subst h; simp [hid]
    · have hx : x.id ≠ id := by
        intro hx
        apply hnd.1
        rw [hx, ← hid]
        exact List.mem_map_of_mem _ h
      simp only [List.find?_cons, hx, decide_False]
      exact ih c hnd.2 h hid

theorem getClient_of_mem (s : Server) (c : Client) (hnd : (s.clients.map (fun d => d.id)).Nodup)
    (hc : c ∈ s.clients) : s.getClient c.id = some c :=
  find_of_nodup c.id s.clients c hnd hc rfl

theorem setClient_ids (s : Server) (c : Client) :
    (s.setClient c).clients.map (fun d => d.id) = s.clients.map (fun d => d.id) := by
  simp only [Server.setClient, List.map_map]
  apply List.map_congr_left
  intro d _
  simp only [Function.comp]
  split
  · rename_i h; exact h.symm
  · rfl

theorem setClient_mem (s : Server) (c d : Client) (h : d ∈ (s.setClient c).clients) :
    d ∈ s.clients ∨ d = c := by
  simp only [Server.setClient, List.mem_map] at h
  obtain ⟨x, hx, h1⟩ := h
  split at h1
  · right; exact h1.symm
  · left; rw [← h1]; exact hx

theorem find_map_set (c : Client) (id : Nat) :
    ∀ cs : List Client,
      (cs.map (fun d => if d.id = c.id then c else d)).find? (fun d => d.id = id) =
        if id = c.id then (cs.find? (fun d => d.id = id)).map (fun _ => c)
        else cs.find? (fun d => d.id = id) := by
  intro cs
  induction cs with
  | nil => simp
  | cons x xs ih =>
    rw [List.map_cons, List.find?_cons, List.find?_cons, ih]
    by_cases hx : x.id = c.id
    · by_cases hid : id = c.id
      · simp [hx, hid]
      · have : ¬ c.id = id := fun h => hid h.symm
        simp [hx, hid, this]
    · by_cases hid : id = c.id
      · have : ¬ x.id = id := fun h => hx (h.trans hid)
        simp only [hx, if_false, this, decide_False, hid, if_true]
      · by_cases hxi : x.id = id
        · simp [hx, hxi, hid]
        · simp [hx, hxi, hid]

theorem getClient_setClient (s : Server) (c : Client) (id : Nat) :
    (s.setClient c).getClient id =
      if id = c.id then (s.getClient id).map (fun _ => c) else s.getClient id :=
  find_map_set c id s.clients

theorem inv_init : Inv Server.init := by
  simp [Inv, Server.init, stringmap_init, StringMap.entries]

theorem inv_congr (s s' : Server) (h1 : s'.sm = s.sm) (h2 : s'.clients = s.clients)
    (h3 : s'.clientCount = s.clientCount) (h : Inv s) : Inv s' := by
  unfold Inv at *
  rw [h1, h2, h3]; exact h

theorem inv_setClient (s : Server) (c c' : Client) (hc : c ∈ s.clients) (hid : c'.id = c.id)
    (h : Inv s) : Inv (s.setClient c') := by
  obtain ⟨h1, h3, h4⟩ := h
  refine ⟨h1, ?_, ?_⟩
  · intro d hd
    rcases setClient_mem s c' d hd with h | h
    · exact h3 d h
    · subst h; rw [hid]; exact h3 c hc
  · rw [setClient_ids]; exact h4

theorem client_thread_line_some (s : Server) (c : Client) (l : CString) (s' : Server)
    (h : client_thread_line s c l = some s') :
    ∃ s1 b, client_thread_body s c l = some (s1, b) ∧
      s'.sm = s1.sm ∧ s'.clients = s1.clients ∧ s'.clientCount = s1.clientCount ∧
      s'.statistics = s1.statistics ∧ s'.out = s1.out ∧
      s'.guard = (if b then s1.guard + 1 else s1.guard) := by
  unfold client_thread_line at h
  cases hb : client_thread_body s c l with
  | none => simp [hb] at h
  | some r =>
    obtain ⟨s1, b⟩ := r
    cases b with
    | true => simp only [hb] at h; cases h; exact ⟨s1, true, rfl, by simp [release_lock]⟩
    | false => simp only [hb] at h; cases h; exact ⟨_, false, rfl, by simp⟩

theorem inv_body (s : Server) (c : Client) (l : CString) (s1 : Server) (b : Bool)
    (hc : c ∈ s.clients) (h : Inv s) (hb : client_thread_body s c l = some (s1, b)) :
    Inv s1 := by
  have hwf := client_thread_body_wf s c l s1 b h.1 hb
  have hcl := client_thread_body_clients s c l s1 b hb
  have hfr := client_thread_body_frame s c l s1 b hb
  have hbase : Inv { s with sm := s1.sm } := ⟨hwf, h.2.1, h.2.2⟩
  cases hn : c.name with
  | some n =>
    simp only [hn] at hcl
    exact inv_congr { s with sm := s1.sm } s1 rfl hcl hfr.2.1 hbase
  | none =>
    cases ha : acceptedName l with
    | none =>
      simp only [hn, ha] at hcl
      exact inv_congr { s with sm := s1.sm } s1 rfl hcl hfr.2.1 hbase
    | some t =>
      simp only [hn, ha] at hcl
      have := inv_setClient { s with sm := s1.sm } c { c with name := some t } hc rfl hbase
      exact inv_congr (Server.setClient { s with sm := s1.sm } { c with name := some t }) s1
        rfl hcl hfr.2.1 this

theorem inv_step (s : Server) (e : Event) (s' : Server) (h : Inv s)
    (hs : step s e = some s') : Inv s' := by
  cases e with
  | accept name =>
    simp only [step, Option.some.injEq] at hs
    subst hs
    obtain ⟨h1, h3, h4⟩ := h
    refine ⟨h1, ?_, ?_⟩
    · intro c hc
      simp only [process_connections, List.mem_append, List.mem_singleton] at hc
      rcases hc with hc | hc
      · have := h3 c hc; simp only [process_connections]; omega
      · subst hc; simp [process_connections]
    · simp only [process_connections, List.map_append, List.map_cons, List.map_nil]
      rw [List.nodup_append]
      refine ⟨h4, by simp, ?_⟩
      intro a ha hb
      simp only [List.mem_singleton] at hb
      obtain ⟨c, hc, hca⟩ := List.mem_map.1 ha
      have := h3 c hc
      omega
  | start id =>
    simp only [step] at hs
    cases hg : s.getClient id with
    | none => simp [hg] at hs
    | some c =>
      simp only [hg] at hs
      by_cases hst : c.started = true
      · simp [hst] at hs
      · simp only [hst] at hs
        unfold take_lock at hs
        by_cases hgd : 0 < s.guard
        · simp only [hgd, if_true] at hs
          simp only [Bool.false_eq_true, if_false, Option.some.injEq] at hs
          subst hs
          have hc := (getClient_mem s id c hg).1
          exact inv_setClient _ c _ hc rfl (inv_congr s _ rfl rfl rfl h)
        · simp [hgd] at hs
  | line id l =>
    simp only [step] at hs
    cases hg : s.getClient id with
    | none => simp [hg] at hs
    | some c =>
      simp only [hg] at hs
      split at hs
      · obtain ⟨s1, b, hb, h1, h2, h3, _⟩ := client_thread_line_some s c l s' hs
        exact inv_congr s1 s' h1 h2 h3 (inv_body s c l s1 b (getClient_mem s id c hg).1 h hb)
      · cases hs
  | eof id =>
    simp only [step] at hs
    cases hg : s.getClient id with
    | none => simp [hg] at hs
    | some c =>
      simp only [hg] at hs
      split at hs
      · unfold client_thread_eof at hs
        split at hs
        · cases hs
          have hc := (getClient_mem s id c hg).1
          exact inv_setClient _ c _ hc rfl h
        · cases hs
      · cases hs

theorem inv_run : ∀ (es : List Event) (s s' : Server), Inv s → run s es = some s' → Inv s' := by
  intro es
  induction es with
  | nil => intro s s' h hr; simp only [run, Option.some.injEq] at hr; subst hr; exact h
  | cons e es ih =>
    intro s s' h hr
    simp only [run] at hr
    cases hs : step s e with
    | none => simp [hs] at hr
    | some s1 =>
      simp only [hs] at hr
      exact ih s1 s' (inv_step s e s1 h hs) hr

theorem inv_reachable (s : Server) (h : Reachable s) : Inv s := by
  obtain ⟨es, hes⟩ := h
  exact inv_run es _ _ inv_init hes

/-! ## Lemmas: lines of a given verb, and runs -/

theorem split_lineOf (v : CString) (tail : Option CString) (hv : ' ' ∉ v) :
    (split_by_char (lineOf v tail) ' ' 2).headD [] = v ∧
      (split_by_char (lineOf v tail) ' ' 2)[1]? = tail := by
  cases tail with
  | none => simp only [lineOf, split_by_char_not_mem v ' ' 2 hv]; exact ⟨rfl, rfl⟩
  | some t => simp only [lineOf, split_by_char_two v t ' ' hv]; exact ⟨rfl, rfl⟩

theorem client_thread_body_pub (s : Server) (c : Client) (tail : Option CString) :
    client_thread_body s c (lineOf verbPub tail) = pub_branch s c tail := by
  obtain ⟨h1, h2⟩ := split_lineOf verbPub tail (by decide)
  unfold client_thread_body
  simp only [h1, h2]
  rw [if_neg (by decide), if_neg (by decide), if_pos trivial]

theorem client_thread_body_sub (s : Server) (c : Client) (tail : Option CString) :
    client_thread_body s c (lineOf verbSub tail) = sub_branch s c tail := by
  obtain ⟨h1, h2⟩ := split_lineOf verbSub tail (by decide)
  unfold client_thread_body
  simp only [h1, h2]
  rw [if_neg (by decide), if_pos trivial]

theorem client_thread_body_unsub (s : Server) (c : Client) (tail : Option CString) :
    client_thread_body s c (lineOf verbUnsub tail) = unsub_branch s c tail := by
  obtain ⟨h1, h2⟩ := split_lineOf verbUnsub tail (by decide)
  unfold client_thread_body
  simp only [h1, h2]
  rw [if_neg (by decide), if_neg (by decide), if_neg (by decide), if_pos trivial]

theorem client_thread_body_name (s : Server) (c : Client) (tail : Option CString) :
    client_thread_body s c (lineOf verbName tail) = some (name_branch s c tail, true) := by
  obtain ⟨h1, h2⟩ := split_lineOf verbName tail (by decide)
  unfold client_thread_body
  simp only [h1, h2]
  rw [if_pos trivial]

theorem step_line (s : Server) (id : Nat) (c : Client) (l : CString)
    (hg : s.getClient id = some c) (hs : c.started = true) (hc : c.closed = false)
    (hl : '\n' ∉ l) : step s (Event.line id l) = client_thread_line s c l := by
  simp only [step, hg, hs, hc]
  rw [if_pos]
  exact ⟨trivial, by simp, hl⟩

theorem step_line_some (s : Server) (id : Nat) (l : CString) (s' : Server)
    (h : step s (Event.line id l) = some s') :
    ∃ c, s.getClient id = some c ∧ client_thread_line s c l = some s' := by
  simp only [step] at h
  cases hg : s.getClient id with
  | none => simp [hg] at h
  | some c =>
    simp only [hg] at h
    split at h
    · exact ⟨c, rfl, h⟩
    · cases h

theorem step_line_defined (s : Server) (id : Nat) (c : Client) (l : CString)
    (hinv : Inv s) (hopen : s.listedOpen) (hg : s.getClient id = some c)
    (hs : c.started = true) (hc : c.closed = false) (hl : '\n' ∉ l) :
    ∃ s', step s (Event.line id l) = some s' := by
  obtain ⟨s1, b, hb⟩ := client_thread_body_defined s c l hinv.1 hopen
  rw [step_line s id c l hg hs hc hl]
  unfold client_thread_line
  rw [hb]
  cases b
  · exact ⟨_, rfl⟩
  · exact ⟨_, rfl⟩

theorem pubLine_ne_invalidLine (n t p : CString) : pubLine n t p ≠ invalidLine := by
  intro h
  have h1 : (pubLine n t p).count ':' = invalidLine.count ':' := by rw [h]
  have h2 : invalidLine.count ':' = 1 := by decide
  simp only [pubLine, List.count_append, h2] at h1
  have h3 : ([':'] : CString).count ':' = 1 := by decide
  omega

theorem newWrites_append (s s' : Server) (w : List (Nat × CString)) (h : s'.out = s.out ++ w) :
    newWrites s s' = w := by
  simp [newWrites, h]

/-! ## Lemmas: evaluation of single lines, display names along a run -/

theorem pub_branch_eval (s : Server) (c : Client) (n T P : CString) (hn : c.name = some n)
    (hT : ' ' ∉ T) (hP : P ≠ []) (hwf : ∀ e ∈ s.sm.entries, ArrWF e.item) :
    pub_branch s c (some (T ++ ' ' :: P)) =
      if (s.subscribers_of T).all s.streamOpen then
        some ({ s with out := s.out ++
          (s.subscribers_of T).map (fun r => (r, pubLine n T P)) }, true)
      else none := by
  have hP' : ¬ strlen P = 0 := fun h => hP (List.length_eq_zero.1 h)
  have ht : ¬ strlen (T ++ ' ' :: P) = 0 := by simp [strlen]
  unfold pub_branch
  simp only [ht, if_false, hn, split_by_char_two T P ' ' hT]
  have h1 : ([T, P] : List CString)[1]? = some P := rfl
  simp only [h1, hP', if_false, List.headD_cons, Server.subscribers_of]
  cases hs : stringmap_search s.sm (some T) with
  | none => simp
  | some a =>
    obtain ⟨e0, he0, _, h0⟩ := stringmap_search_mem _ _ _ hs
    have hwa : ArrWF a := h0 ▸ hwf e0 he0
    simp only [pubLoop_subscribers a hwa.1]

theorem client_thread_line_of_body (s : Server) (c : Client) (l : CString) (s1 : Server)
    (b : Bool) (h : client_thread_body s c l = some (s1, b)) :
    client_thread_line s c l = some (if b then release_lock s1 else s1) := by
  unfold client_thread_line
  rw [h]
  cases b <;> rfl

theorem nameOf_congr (s s' : Server) (id : Nat) (h : s'.clients = s.clients) :
    s'.nameOf id = s.nameOf id := by
  simp only [Server.nameOf, Server.getClient, h]

theorem option_keep (x : Option CString) :
    (match x with
      | some n => some n
      | none => none) = x := by
  cases x <;> rfl

theorem nameOf_setClient_same (s : Server) (c c' : Client) (id : Nat)
    (hg : s.getClient c.id = some c) (hid : c'.id = c.id) (hname : c'.name = c.name) :
    (s.setClient c').nameOf id = s.nameOf id := by
  simp only [Server.nameOf, getClient_setClient]
  by_cases h : id = c'.id
  · simp only [h, if_true, hid, hg, Option.map_some', hname]
  · simp only [h, if_false]

theorem firstName_cons (id : Nat) (e : Event) (es : List Event) :
    firstName id (e :: es) =
      match firstName id [e] with
      | some t => some t
      | none => firstName id es := by
  cases e with
  | accept name => rfl
  | start i => rfl
  | eof i => rfl
  | line i l =>
    simp only [firstName]
    by_cases h : i = id
    · simp only [h, if_true]
      cases acceptedName l <;> rfl
    · simp only [h, if_false]

theorem firstName_valid (id : Nat) :
    ∀ (es : List Event) (n : CString), firstName id es = some n → ValidString n := by
  intro es
  induction es with
  | nil => intro n h; cases h
  | cons e es ih =>
    intro n h
    cases e with
    | accept name => exact ih n h
    | start i => exact ih n h
    | eof i => exact ih n h
    | line i l =>
      simp only [firstName] at h
      by_cases hi : i = id
      · simp only [hi, if_true] at h
        cases ha : acceptedName l with
        | none => rw [ha] at h; exact ih n h
        | some t => rw [ha] at h; cases h; exact acceptedName_valid l _ ha
      · simp only [hi, if_false] at h; exact ih n h

theorem nameAtAccept_old (id : Nat) :
    ∀ (es : List Event) (clientCount : Nat), id ≤ clientCount →
      nameAtAccept clientCount id es = none := by
  intro es
  induction es with
  | nil => intro _ _; rfl
  | cons e es ih =>
    intro cc h
    cases e with
    | accept name =>
      simp only [nameAtAccept]
      rw [if_neg (by omega)]
      exact ih (cc + 1) (by omega)
    | start i => exact ih cc h
    | eof i => exact ih cc h
    | line i l => exact ih cc h

theorem step_nameOf (s : Server) (e : Event) (s' : Server) (id : Nat)
    (hs : step s e = some s') (hne : ∀ name, e ≠ Event.accept name) :
    s'.nameOf id =
      match s.nameOf id with
      | some n => some n
      | none => firstName id [e] := by
  cases e with
  | accept name => exact absurd rfl (hne name)
  | start i =>
    simp only [firstName, option_keep]
    simp only [step] at hs
    cases hg : s.getClient i with
    | none => simp [hg] at hs
    | some c =>
      simp only [hg] at hs
      by_cases hst : c.started = true
      · simp [hst] at hs
      · simp only [hst, Bool.false_eq_true, if_false] at hs
        unfold take_lock at hs
        by_cases hgd : 0 < s.guard
        · simp only [hgd, if_true, Option.some.injEq] at hs
          subst hs
          have hci := (getClient_mem s i c hg).2
          exact nameOf_setClient_same { s with guard := s.guard - 1 } c
            { c with started := true } id (by rw [hci]; exact hg) rfl rfl
        · simp [hgd] at hs
  | eof i =>
    simp only [firstName, option_keep]
    simp only [step] at hs
    cases hg : s.getClient i with
    | none => simp [hg] at hs
    | some c =>
      simp only [hg] at hs
      split at hs
      · unfold client_thread_eof at hs
        split at hs
        · cases hs
          have hci := (getClient_mem s i c hg).2
          exact nameOf_setClient_same s c _ id (by rw [hci]; exact hg) rfl rfl
        · cases hs
      · cases hs
  | line i l =>
    obtain ⟨c, hg, hline⟩ := step_line_some s i l s' hs
    obtain ⟨s1, b, hb, _, h2, _⟩ := client_thread_line_some s c l s' hline
    have hcl := client_thread_body_clients s c l s1 b hb
    have hci := (getClient_mem s i c hg).2
    rw [nameOf_congr s1 s' id h2]
    simp only [firstName]
    by_cases hi : i = id
    · subst hi
      have hname : s.nameOf i = c.name := by simp [Server.nameOf, hg]
      rw [hname]
      simp only [if_true]
      cases hn : c.name with
      | some n =>
        simp only [hn] at hcl
        rw [nameOf_congr s s1 i hcl, hname, hn]
      | none =>
        cases ha : acceptedName l with
        | none =>
          simp only [hn, ha] at hcl
          rw [nameOf_congr s s1 i hcl, hname, hn]
        | some t =>
          simp only [hn, ha] at hcl
          rw [nameOf_congr (s.setClient { c with name := some t }) s1 i hcl]
          simp only [Server.nameOf, getClient_setClient, hci, if_true, hg, Option.map_some']
    · simp only [hi, if_false, option_keep]
      cases hn : c.name with
      | some n =>
        simp only [hn] at hcl
        exact nameOf_congr s s1 id hcl
      | none =>
        cases ha : acceptedName l with
        | none =>
          simp only [hn, ha] at hcl
          exact nameOf_congr s s1 id hcl
        | some t =>
          simp only [hn, ha] at hcl
          rw [nameOf_congr (s.setClient { c with name := some t }) s1 id hcl]
          simp only [Server.nameOf, getClient_setClient]
          have : ¬ id = c.id := fun h => hi (hci.symm.trans h.symm)
          simp only [this, if_false]

theorem accept_nameOf (s : Server) (name : Option CString) (id : Nat) (hinv : Inv s) :
    (process_connections s name).nameOf id =
      match s.nameOf id with
      | some n => some n
      | none => if s.clientCount + 1 = id then name else none := by
  simp only [Server.nameOf, Server.getClient, process_connections, List.find?_append]
  cases hf : s.clients.find? (fun c => decide (c.id = id)) with
  | some c =>
    have hc := List.mem_of_find?_eq_some hf
    have hid : c.id = id := by simpa using List.find?_some hf
    have hle := hinv.2.1 c hc
    have hne : ¬ s.clientCount + 1 = id := by omega
    simp only [Option.or, hne, if_false]
    cases c.name <;> rfl
  | none =>
    simp only [Option.or, List.find?_cons, List.find?_nil]
    by_cases hid : s.clientCount + 1 = id
    · simp [hid]
    · simp [hid]

theorem step_clientCount (s : Server) (e : Event) (s' : Server) (hs : step s e = some s')
    (hne : ∀ name, e ≠ Event.accept name) : s'.clientCount = s.clientCount := by
  cases e with
  | accept name => exact absurd rfl (hne name)
  | start i =>
    simp only [step] at hs
    cases hg : s.getClient i with
    | none => simp [hg] at hs
    | some c =>
      simp only [hg] at hs
      by_cases hst : c.started = true
      · simp [hst] at hs
      · simp only [hst, Bool.false_eq_true, if_false] at hs
        unfold take_lock at hs
        by_cases hgd : 0 < s.guard
        · simp only [hgd, if_true, Option.some.injEq] at hs
          subst hs; rfl
        · simp [hgd] at hs
  | eof i =>
    simp only [step] at hs
    cases hg : s.getClient i with
    | none => simp [hg] at hs
    | some c =>
      simp only [hg] at hs
      split at hs
      · unfold client_thread_eof at hs
        split at hs
        · cases hs; rfl
        · cases hs
      · cases hs
  | line i l =>
    obtain ⟨c, hg, hline⟩ := step_line_some s i l s' hs
    obtain ⟨s1, b, hb, _, _, h3, _⟩ := client_thread_line_some s c l s' hline
    rw [h3]; exact (client_thread_body_frame s c l s1 b hb).2.1

theorem firstName_some_exists (s : Server) (e : Event) (s' : Server) (id : Nat) (t : CString)
    (hs : step s e = some s') (hf : firstName id [e] = some t) :
    ∃ c, s.getClient id = some c := by
  cases e with
  | accept name => cases hf
  | start i => cases hf
  | eof i => cases hf
  | line i l =>
    simp only [firstName] at hf
    by_cases hi : i = id
    · subst hi
      obtain ⟨c, hg, _⟩ := step_line_some s i l s' hs
      exact ⟨c, hg⟩
    · simp only [hi, if_false] at hf; cases hf

theorem run_nameOf : ∀ (es : List Event) (s s' : Server) (id : Nat), Inv s →
    run s es = some s' →
    s'.nameOf id =
      match s.nameOf id with
      | some n => some n
      | none =>
        match nameAtAccept s.clientCount id es with
        | some (some g) => some g
        | _ => firstName id es := by
  intro es
  induction es with
  | nil =>
    intro s s' id _ hr
    simp only [run, Option.some.injEq] at hr
    subst hr
    simp only [firstName, nameAtAccept, option_keep]
  | cons e es ih =>
    intro s s' id h hr
    simp only [run] at hr
    cases hs : step s e with
    | none => simp [hs] at hr
    | some s1 =>
      simp only [hs] at hr
      have hih := ih s1 s' id (inv_step s e s1 h hs) hr
      by_cases hacc : ∃ name, e = Event.accept name
      · obtain ⟨name, he⟩ := hacc
        subst he
        simp only [step, Option.some.injEq] at hs
        subst hs
        rw [hih, accept_nameOf s name id h]
        have hcc : (process_connections s name).clientCount = s.clientCount + 1 := rfl
        rw [hcc]
        cases hn : s.nameOf id with
        | some n => rfl
        | none =>
          simp only [nameAtAccept, firstName]
          by_cases hid : s.clientCount + 1 = id
          · simp only [hid, if_true]
            cases name with
            | some g => rfl
            | none =>
              simp only [nameAtAccept_old id es id (le_refl id)]
          · simp only [hid, if_false]
      · have hne : ∀ name, e ≠ Event.accept name := fun name he => hacc ⟨name, he⟩
        have hcc := step_clientCount s e s1 hs hne
        have hna : nameAtAccept s.clientCount id (e :: es) = nameAtAccept s.clientCount id es := by
          cases e with
          | accept name => exact absurd rfl (hne name)
          | start i => rfl
          | eof i => rfl
          | line i l => rfl
        rw [hih, step_nameOf s e s1 id hs hne, hna, hcc, firstName_cons id e es]
        cases hn : s.nameOf id with
        | some n => rfl
        | none =>
          cases hf : firstName id [e] with
          | none => rfl
          | some t =>
            obtain ⟨c, hg⟩ := firstName_some_exists s e s1 id t hs hf
            have hc := getClient_mem s id c hg
            have hle := h.2.1 c hc.1
            rw [nameAtAccept_old id es s.clientCount (by omega)]

theorem name_of_run (es : List Event) (s : Server) (id : Nat)
    (h : run Server.init es = some s) :
    s.nameOf id =
      match nameAtAccept 0 id es with
      | some (some g) => some g
      | _ => firstName id es :=
  run_nameOf es Server.init s id inv_init h

/-! ## Lemmas: search, add and remove on the entries -/

theorem searchLoop_eq_none {α : Type} (k : CString) (es : List (StringMapItem α)) :
    searchLoop k es = none ↔ ∀ e ∈ es, e.key ≠ k := by
  induction es with
  | nil => simp [searchLoop]
  | cons x xs ih =>
    simp only [searchLoop]
    by_cases hk : x.key = k
    · simp [hk]
    · simp [hk, ih]

theorem searchLoop_append {α : Type} (k : CString) (xs ys : List (StringMapItem α)) :
    searchLoop k (xs ++ ys) =
      match searchLoop k xs with
      | some a => some a
      | none => searchLoop k ys := by
  induction xs with
  | nil => simp [searchLoop]
  | cons x xs ih =>
    simp only [List.cons_append, searchLoop]
    by_cases hk : x.key = k
    · simp [hk]
    · simp [hk, ih]

theorem removeLoop_eq_none {α : Type} (k : CString) (es : List (StringMapItem α)) :
    removeLoop k es = none ↔ ∀ e ∈ es, e.key ≠ k := by
  induction es with
  | nil => simp [removeLoop]
  | cons x xs ih =>
    simp only [removeLoop]
    by_cases hk : x.key = k
    · simp [hk]
    · simp only [hk, if_false, List.mem_cons, forall_eq_or_imp, ne_eq, not_false_eq_true,
        true_and]
      rw [← ih]
      cases removeLoop k xs <;> simp

theorem removeLoop_split {α : Type} (k : CString) :
    ∀ (es es' : List (StringMapItem α)), removeLoop k es = some es' →
      ∃ pre e post, es = pre ++ e :: post ∧ e.key = k ∧ (∀ x ∈ pre, x.key ≠ k) ∧
        es' = pre ++ post := by
  intro es
  induction es with
  | nil => intro es' h; simp [removeLoop] at h
  | cons x xs ih =>
    intro es' h
    simp only [removeLoop] at h
    by_cases hk : x.key = k
    · simp only [hk, if_true, Option.some.injEq] at h
      exact ⟨[], x, xs, rfl, hk, by simp, by simp [h]⟩
    · simp only [hk, if_false] at h
      cases hr : removeLoop k xs with
      | none => simp [hr] at h
      | some ys =>
        simp only [hr, Option.some.injEq] at h
        obtain ⟨pre, e, post, h1, h2, h3, h4⟩ := ih ys hr
        refine ⟨x :: pre, e, post, by simp [h1], h2, ?_, by simp [← h, h4]⟩
        intro y hy
        rcases List.mem_cons.1 hy with h5 | h5
        · rw [h5]; exact hk
        · exact h3 y h5

theorem entries_of_wf {α : Type} (m : StringMap α) (h : m.WF) : m.entries = m.sm := by
  simp [StringMap.entries, ← h.1]

theorem entries_length_le {α : Type} (m : StringMap α) : m.entries.length ≤ m.count := by
  simp [StringMap.entries]

theorem stringmap_add_entries {α : Type} (m : StringMap α) (k : CString) (it : α)
    (h : ∀ e ∈ m.entries, e.key ≠ k) :
    stringmap_add m (some k) (some it) =
      ({ sm := m.entries ++ [{ key := k, item := it }], count := m.count + 1 }, 1) ∧
    (stringmap_add m (some k) (some it)).1.entries = m.entries ++ [{ key := k, item := it }] := by
  have hs : stringmap_search m (some k) = none := (searchLoop_eq_none k m.entries).2 h
  have h1 : stringmap_add m (some k) (some it) =
      ({ sm := m.entries ++ [{ key := k, item := it }], count := m.count + 1 }, 1) := by
    simp only [stringmap_add, hs]
  refine ⟨h1, ?_⟩
  rw [h1]
  simp only [StringMap.entries]
  apply List.take_of_length_le
  have := entries_length_le m
  simp only [StringMap.entries] at this
  simp only [List.length_append, List.length_singleton]
  omega

theorem stringmap_add_wf {α : Type} (m : StringMap α) (key : Option CString)
    (item : Option α) (h : m.WF) : (stringmap_add m key item).1.WF := by
  cases key with
  | none => simpa [stringmap_add] using h
  | some k =>
    cases item with
    | none => simpa [stringmap_add] using h
    | some it =>
      cases hs : stringmap_search m (some k) with
      | some a => simpa [stringmap_add, hs] using h
      | none =>
        have hno := (searchLoop_eq_none k m.entries).1 hs
        simp only [stringmap_add, hs, StringMap.WF]
        rw [entries_of_wf m h] at hno ⊢
        refine ⟨by simp [h.1], ?_⟩
        simp only [List.map_append, List.map_cons, List.map_nil]
        rw [List.nodup_append]
        refine ⟨h.2, by simp, ?_⟩
        intro a ha hb
        simp only [List.mem_singleton] at hb
        obtain ⟨e, he, hea⟩ := List.mem_map.1 ha
        exact hno e he (hea.trans hb)

theorem stringmap_remove_wf {α : Type} (m : StringMap α) (key : Option CString)
    (h : m.WF) : (stringmap_remove m key).1.WF := by
  cases key with
  | none => simpa [stringmap_remove] using h
  | some k =>
    cases hr : removeLoop k m.entries with
    | none => simpa [stringmap_remove, hr] using h
    | some es =>
      obtain ⟨pre, e, post, h1, _, _, h4⟩ := removeLoop_split k _ _ hr
      simp only [stringmap_remove, hr, StringMap.WF]
      rw [entries_of_wf m h] at h1
      have hlen : m.count = pre.length + post.length + 1 := by
        rw [← h.1, h1]; simp; omega
      refine ⟨by rw [h4, hlen]; simp, ?_⟩
      have hnd := h.2
      rw [h1] at hnd
      rw [h4]
      simp only [List.map_append, List.map_cons] at hnd ⊢
      exact (List.Sublist.nodup (List.Sublist.append_left (List.sublist_cons_self _ _) _) hnd)

theorem build_wf {α : Type} (ops : List (MapOp α)) : (StringMap.build ops).WF := by
  have key : ∀ (ops : List (MapOp α)) (m : StringMap α), m.WF →
      (ops.foldl StringMap.apply m).WF := by
    intro ops
    induction ops with
    | nil => intro m h; exact h
    | cons op ops ih =>
      intro m h
      simp only [List.foldl_cons]
      apply ih
      cases op with
      | add k it => exact stringmap_add_wf m k it h
      | remove k => exact stringmap_remove_wf m k h
  exact key ops stringmap_init (by simp [StringMap.WF, stringmap_init])

theorem stringmap_remove_spec {α : Type} (m : StringMap α) (k : CString) (hwf : m.WF)
    (hex : ∃ e ∈ m.entries, e.key = k) :
    ∃ pre e post, m.entries = pre ++ e :: post ∧ e.key = k ∧
      stringmap_remove m (some k) = ({ sm := pre ++ post, count := m.count - 1 }, 1) ∧
      (stringmap_remove m (some k)).1.entries = pre ++ post ∧
      m.count = (stringmap_remove m (some k)).1.count + 1 ∧
      stringmap_search (stringmap_remove m (some k)).1 (some k) = none ∧
      ∀ k', k' ≠ some k →
        stringmap_search (stringmap_remove m (some k)).1 k' = stringmap_search m k' := by
  cases hr : removeLoop k m.entries with
  | none =>
    obtain ⟨e, he, hk⟩ := hex
    exact absurd hk ((removeLoop_eq_none k m.entries).1 hr e he)
  | some es =>
    obtain ⟨pre, e, post, h1, h2, h3, h4⟩ := removeLoop_split k _ _ hr
    subst h4
    have hrem : stringmap_remove m (some k) = ({ sm := pre ++ post, count := m.count - 1 }, 1) := by
      simp only [stringmap_remove, hr]
    have hlen : m.count = pre.length + post.length + 1 := by
      have := hwf.1
      rw [← entries_of_wf m hwf, h1] at this
      rw [← this]; simp; omega
    have hent : (stringmap_remove m (some k)).1.entries = pre ++ post := by
      rw [hrem]
      simp only [StringMap.entries]
      apply List.take_of_length_le
      simp only [List.length_append]
      omega
    have hnd := hwf.2
    rw [← entries_of_wf m hwf, h1] at hnd
    simp only [List.map_append, List.map_cons] at hnd
    have hpost : ∀ x ∈ post, x.key ≠ k := by
      intro x hx hxk
      have h5 := (List.nodup_append.1 hnd).2.1
      rw [List.nodup_cons] at h5
      apply h5.1
      rw [h2, ← hxk]
      exact List.mem_map_of_mem _ hx
    refine ⟨pre, e, post, h1, h2, hrem, hent, ?_, ?_, ?_⟩
    · rw [hrem]; simp only; omega
    · simp only [stringmap_search, hent]
      rw [searchLoop_eq_none]
      intro x hx
      rcases List.mem_append.1 hx with h5 | h5
      · exact h3 x h5
      · exact hpost x h5
    · intro k' hk'
      cases k' with
      | none => rfl
      | some k2 =>
        have hne : e.key ≠ k2 := by
          intro h; apply hk'; rw [← h, h2]
        simp only [stringmap_search, hent, h1, searchLoop_append, searchLoop, hne, if_false]

/-! ## Lemmas: the counters -/

theorem step_statistics (s : Server) (e : Event) (s' : Server) (hs : step s e = some s') :
    s'.statistics = s.statistics := by
  cases e with
  | accept =>
    simp only [step, Option.some.injEq] at hs
    subst hs; rfl
  | start id =>
    simp only [step] at hs
    cases hg : s.getClient id with
    | none => simp [hg] at hs
    | some c =>
      simp only [hg] at hs
      by_cases hst : c.started = true
      · simp [hst] at hs
      · simp only [hst, Bool.false_eq_true, if_false] at hs
        unfold take_lock at hs
        by_cases hgd : 0 < s.guard
        · simp only [hgd, if_true, Option.some.injEq] at hs
          subst hs; rfl
        · simp [hgd] at hs
  | line id l =>
    obtain ⟨c, _, hline⟩ := step_line_some s id l s' hs
    obtain ⟨s1, b, hb, _, _, _, h4, _⟩ := client_thread_line_some s c l s' hline
    rw [h4]
    exact (client_thread_body_frame s c l s1 b hb).1
  | eof id =>
    simp only [step] at hs
    cases hg : s.getClient id with
    | none => simp [hg] at hs
    | some c =>
      simp only [hg] at hs
      split at hs
      · unfold client_thread_eof at hs
        split at hs
        · cases hs; rfl
        · cases hs
      · cases hs

theorem run_statistics : ∀ (es : List Event) (s s' : Server), run s es = some s' →
    s'.statistics = s.statistics := by
  intro es
  induction es with
  | nil => intro s s' h; simp only [run, Option.some.injEq] at h; rw [h]
  | cons e es ih =>
    intro s s' h
    simp only [run] at h
    cases hs : step s e with
    | none => simp [hs] at h
    | some s1 =>
      simp only [hs] at h
      rw [ih s1 s' h, step_statistics s e s1 hs]

theorem reachable_statistics (s : Server) (h : Reachable s) :
    s.statistics = [0, 0, 0, 0, 0] := by
  obtain ⟨es, hes⟩ := h
  exact run_statistics es _ _ hes

/-! ## Lemmas: rejected lines -/

theorem client_thread_body_unknown (s : Server) (c : Client) (v : CString)
    (tail : Option CString) (hv : ' ' ∉ v) (h1 : v ≠ verbName) (h2 : v ≠ verbSub)
    (h3 : v ≠ verbUnsub) (h4 : v ≠ verbPub) :
    client_thread_body s c (lineOf v tail) = some (fprintf s c.id invalidLine, true) := by
  obtain ⟨ha, hb⟩ := split_lineOf v tail hv
  unfold client_thread_body
  simp only [ha, hb]
  rw [if_neg h1, if_neg h2, if_neg h4, if_neg h3]

theorem pub_branch_no_payload (s : Server) (c : Client) (n T : CString)
    (hn : c.name = some n) (hT : ' ' ∉ T) :
    pub_branch s c (some T) = some (fprintf s c.id invalidLine, false) ∧
    pub_branch s c (some (T ++ [' '])) = some (fprintf s c.id invalidLine, false) := by
  constructor
  · unfold pub_branch
    by_cases h0 : strlen T = 0
    · simp only [h0, if_true]
    · simp only [h0, if_false, hn, split_by_char_not_mem T ' ' 2 hT]
      rfl
  · have h0 : ¬ strlen (T ++ [' ']) = 0 := by simp [strlen]
    unfold pub_branch
    simp only [h0, if_false, hn, split_by_char_two T [] ' ' hT]
    have h1 : ([T, []] : List CString)[1]? = some [] := rfl
    simp only [h1]
    rfl

theorem listedOpen_congr (s s' : Server) (h1 : s'.sm = s.sm) (h2 : s'.clients = s.clients)
    (h : s.listedOpen) : s'.listedOpen := by
  unfold Server.listedOpen Server.streamOpen Server.getClient at *
  rw [h1, h2]; exact h

theorem step_line_invalid (s : Server) (id : Nat) (c : Client) (l : CString) (b : Bool)
    (hinv : Inv s) (hg : s.getClient id = some c) (hst : c.started = true)
    (hcl : c.closed = false) (hl : '\n' ∉ l)
    (hb : client_thread_body s c l = some (fprintf s c.id invalidLine, b)) :
    ∃ s', step s (Event.line id l) = some s' ∧ newWrites s s' = [(id, invalidLine)] ∧
      s'.sm = s.sm ∧ s'.clients = s.clients ∧ s'.getClient id = some c ∧
      (s.listedOpen → ∀ l', '\n' ∉ l' → ∃ s'', step s' (Event.line id l') = some s'') := by
  have hid : c.id = id := (getClient_mem s id c hg).2
  have hstep : step s (Event.line id l)
      = some (if b then release_lock (fprintf s c.id invalidLine)
              else fprintf s c.id invalidLine) := by
    rw [step_line s id c l hg hst hcl hl, client_thread_line_of_body s c l _ b hb]
  have hcl' : (if b then release_lock (fprintf s c.id invalidLine)
      else fprintf s c.id invalidLine).clients = s.clients := by
    cases b <;> rfl
  have hsm' : (if b then release_lock (fprintf s c.id invalidLine)
      else fprintf s c.id invalidLine).sm = s.sm := by
    cases b <;> rfl
  have hg' : (if b then release_lock (fprintf s c.id invalidLine)
      else fprintf s c.id invalidLine).getClient id = some c := by
    simp only [Server.getClient, hcl']
    exact hg
  refine ⟨_, hstep, ?_, hsm', hcl', hg', ?_⟩
  · rw [← hid]
    apply newWrites_append
    cases b <;> rfl
  · intro hopen l' hl'
    have hinv' := inv_step s _ _ hinv hstep
    exact step_line_defined _ id c l' hinv' (listedOpen_congr s _ hsm' hcl' hopen) hg' hst hcl hl'

/-! ## Lemmas: the shape of the fan-out -/

theorem pub_branch_shape (s : Server) (c : Client) (tail : Option CString) (s' : Server)
    (b : Bool) (hwf : ∀ e ∈ s.sm.entries, ArrWF e.item)
    (h : pub_branch s c tail = some (s', b)) :
    s' = fprintf s c.id invalidLine ∨ s' = s ∨
    ∃ n T P, c.name = some n ∧ tail = some (T ++ ' ' :: P) ∧ ' ' ∉ T ∧ P ≠ [] ∧
      s' = { s with out := s.out ++ (s.subscribers_of T).map (fun r => (r, pubLine n T P)) } := by
  cases tail with
  | none => simp only [pub_branch] at h; cases h; left; rfl
  | some t =>
    cases hn : c.name with
    | none =>
      unfold pub_branch at h
      by_cases ht : strlen t = 0
      · simp only [ht, if_true] at h; cases h; left; rfl
      · simp only [ht, if_false, hn] at h; cases h; right; left; rfl
    | some n =>
      rcases split_by_char_cases t ' ' with ⟨_, h2⟩ | ⟨T, P, h1, h2, _⟩
      · unfold pub_branch at h
        by_cases ht : strlen t = 0
        · simp only [ht, if_true] at h; cases h; left; rfl
        · have hnone : ([t] : List CString)[1]? = none := rfl
          simp only [ht, if_false, hn, h2, hnone] at h
          cases h; left; rfl
      · subst h1
        by_cases hP : P = []
        · subst hP
          rw [(pub_branch_no_payload s c n T hn h2).2] at h
          cases h; left; rfl
        · rw [pub_branch_eval s c n T P hn h2 hP hwf] at h
          by_cases ho : (s.subscribers_of T).all s.streamOpen = true
          · rw [if_pos ho] at h
            cases h
            right; right
            exact ⟨n, T, P, rfl, rfl, h2, hP, rfl⟩
          · rw [if_neg ho] at h; cases h

theorem split_tail_subset (l t : CString) (h : (split_by_char l ' ' 2)[1]? = some t) :
    ∀ ch, ch ∈ t → ch ∈ l := by
  rcases split_by_char_cases l ' ' with ⟨_, h2⟩ | ⟨a, b, h1, _, h3⟩
  · rw [h2] at h; cases h
  · rw [h3] at h
    have : b = t := by simpa using h
    subst this
    intro ch hch
    rw [h1]
    simp [hch]

theorem takeWhile_colon (a rest : CString) (h : ':' ∉ a) :
    (a ++ ':' :: rest).takeWhile (fun ch => ch != ':') = a := by
  induction a with
  | nil => simp
  | cons x xs ih =>
    have hx : x ≠ ':' := fun e => h (by simp [e])
    have hxs : ':' ∉ xs := fun e => h (by simp [e])
    have hb : (x != ':') = true := by simp [hx]
    simp only [List.cons_append, List.takeWhile_cons, hb, if_true, ih hxs]

theorem drop_past_colon (a rest : CString) :
    (a ++ ':' :: rest).drop (a.length + 1) = rest := by
  induction a with
  | nil => simp
  | cons x xs ih => simp

/-! ## Lemmas: the arguments of main -/

theorem atoi_of_firstIsDigit (s : CString) (h : firstIsDigit s = true) :
    atoi s = if (atoiDigits s 0 : Int) ≤ INT_MAX then some (atoiDigits s 0 : Int) else none := by
  cases s with
  | nil => simp [firstIsDigit] at h
  | cons c cs =>
    simp only [firstIsDigit, isdigit, decide_eq_true_eq] at h
    have hsp : isspace c = false := by
      simp only [isspace, decide_eq_false_iff_not, not_or]
      refine ⟨?_, ?_, ?_, ?_, ?_, ?_⟩ <;> (rintro rfl; exact absurd h.1 (by decide))
    have hm : c ≠ '-' := by rintro rfl; exact absurd h.1 (by decide)
    have hp : c ≠ '+' := by rintro rfl; exact absurd h.1 (by decide)
    unfold atoi
    have hd : List.dropWhile isspace (c :: cs) = c :: cs := by
      simp [List.dropWhile, hsp]
    rw [hd]
    split
    · rename_i heq; exact absurd (List.cons.inj heq).1 hm
    · rename_i heq; exact absurd (List.cons.inj heq).1 hp
    · rfl

theorem atoi_in_range (s : CString) (h : firstIsDigit s = true)
    (hr : atoiDigits s 0 < 2 ^ 31) : atoi s = some (atoiDigits s 0 : Int) := by
  rw [atoi_of_firstIsDigit s h, if_pos]
  simp only [INT_MAX]
  omega

theorem main_usage_iff (argv : List CString)
    (hrange : ∀ a ∈ argv, atoiDigits a 0 < 2 ^ 31) :
    (main argv = some print_err ↔
      ((argv.length ≠ 2 ∧ argv.length ≠ 3) ∨
       (∃ a1, argv[1]? = some a1 ∧ firstIsDigit a1 = false) ∨
       (∃ a2, argv[2]? = some a2 ∧
          (firstIsDigit a2 = false ∨
           (atoiDigits a2 0 ≠ 0 ∧ (atoiDigits a2 0 < 1024 ∨ 65535 < atoiDigits a2 0)))))) ∧
    (main argv ≠ some print_err →
      ∃ a1, argv[1]? = some a1 ∧
        main argv = some (MainResult.open_listen (argv.getD 2 ['0']) (atoiDigits a1 0 : Int))) := by
  have hne : ∀ (p : CString) (n : Int), some (MainResult.open_listen p n) ≠ some print_err := by
    intro p n h
    simp [print_err] at h
  rcases argv with _ | ⟨p, _ | ⟨a1, _ | ⟨a2, _ | ⟨a3, rest⟩⟩⟩⟩
  · simp [main]
  · simp [main]
  · by_cases h1 : firstIsDigit a1 = true
    · have ha := atoi_in_range a1 h1 (hrange a1 (by simp))
      have hmain : main [p, a1] = some (MainResult.open_listen ['0'] (atoiDigits a1 0 : Int)) := by
        simp [main, h1, ha]
      rw [hmain]
      refine ⟨?_, fun _ => ⟨a1, rfl, rfl⟩⟩
      constructor
      · intro h; exact absurd h (hne _ _)
      · intro h; simp [h1] at h
    · simp [main, h1]
  · by_cases h1 : firstIsDigit a1 = true
    · have ha := atoi_in_range a1 h1 (hrange a1 (by simp))
      by_cases h2 : firstIsDigit a2 = true
      · have hb := atoi_in_range a2 h2 (hrange a2 (by simp))
        by_cases hp : (atoiDigits a2 0 ≠ 0 ∧ (atoiDigits a2 0 < 1024 ∨ 65535 < atoiDigits a2 0))
        · have hmain : main [p, a1, a2] = some print_err := by
            have hp' : (atoiDigits a2 0 < 1024 ∨ 65535 < atoiDigits a2 0) ∧
                ¬ atoiDigits a2 0 = 0 := ⟨hp.2, hp.1⟩
            have hnn : ¬ ((atoiDigits a1 0 : Int) < 0) := by omega
            simp only [main, List.length_cons, List.length_nil]
            simp [h1, ha, h2, hb, hp', hnn]
          rw [hmain]
          refine ⟨?_, fun h => absurd rfl h⟩
          constructor
          · intro _; right; right; exact ⟨a2, rfl, Or.inr hp⟩
          · intro _; rfl
        · have hmain : main [p, a1, a2]
              = some (MainResult.open_listen a2 (atoiDigits a1 0 : Int)) := by
            have hp' : ¬ ((atoiDigits a2 0 < 1024 ∨ 65535 < atoiDigits a2 0) ∧
                ¬ atoiDigits a2 0 = 0) := fun h => hp ⟨h.2, h.1⟩
            have hnn : ¬ ((atoiDigits a1 0 : Int) < 0) := by omega
            simp only [main, List.length_cons, List.length_nil]
            simp [h1, ha, h2, hb, hp', hnn]
          rw [hmain]
          refine ⟨?_, fun _ => ⟨a1, rfl, rfl⟩⟩
          constructor
          · intro h; exact absurd h (hne _ _)
          · intro h
            simp [h1, h2] at h
            exact absurd h hp
      · have hmain : main [p, a1, a2] = some print_err := by
          simp only [main, List.length_cons, List.length_nil]
          simp [h1, ha, h2]
        rw [hmain]
        refine ⟨?_, fun h => absurd rfl h⟩
        constructor
        · intro _; right; right; exact ⟨a2, rfl, Or.inl (by simpa using h2)⟩
        · intro _; rfl
    · have hmain : main [p, a1, a2] = some print_err := by
        simp only [main, List.length_cons, List.length_nil]
        simp [h1]
      rw [hmain]
      refine ⟨?_, fun h => absurd rfl h⟩
      constructor
      · intro _; right; left; exact ⟨a1, rfl, by simpa using h1⟩
      · intro _; rfl
  · have hmain : main (p :: a1 :: a2 :: a3 :: rest) = some print_err := by
      simp [main]
    rw [hmain]
    refine ⟨?_, fun h => absurd rfl h⟩
    constructor
    · intro _; left; simp
    · intro _; rfl

/-! ## Lemmas: one more named connection -/

theorem run_append (es1 es2 : List Event) : ∀ (s s1 s2 : Server),
    run s es1 = some s1 → run s1 es2 = some s2 → run s (es1 ++ es2) = some s2 := by
  induction es1 with
  | nil =>
    intro s s1 s2 h1 h2
    simp only [run, Option.some.injEq] at h1
    subst h1
    exact h2
  | cons e es ih =>
    intro s s1 s2 h1 h2
    simp only [run, List.cons_append] at h1 ⊢
    cases hs : step s e with
    | none => simp [hs] at h1
    | some s' =>
      simp only [hs] at h1 ⊢
      exact ih s' s1 s2 h1 h2

theorem map_replace_absent (id : Nat) (x : Client) (cs : List Client)
    (h : ∀ d ∈ cs, d.id ≠ id) :
    cs.map (fun d => if d.id = id then x else d) = cs := by
  induction cs with
  | nil => rfl
  | cons d ds ih =>
    have hd : d.id ≠ id := h d (by simp)
    simp only [List.map_cons, hd, if_false]
    rw [ih (fun y hy => h y (by simp [hy]))]

theorem step_start_spec (s : Server) (id : Nat) (c : Client)
    (hg : s.getClient id = some c) (hst : c.started = false) (hgd : 0 < s.guard) :
    ∃ s', step s (Event.start id) = some s' ∧ s'.guard = s.guard - 1 ∧
      s'.clients = s.clients.map (fun d => if d.id = id then { c with started := true } else d) := by
  have hid := (getClient_mem s id c hg).2
  have h : step s (Event.start id)
      = some (Server.setClient { s with guard := s.guard - 1 } { c with started := true }) := by
    simp only [step, hg, hst, take_lock, hgd, if_true]
    rfl
  exact ⟨_, h, rfl, by simp only [Server.setClient, hid]⟩

theorem step_name_spec (s : Server) (id : Nat) (c : Client)
    (hg : s.getClient id = some c) (hst : c.started = true) (hcl : c.closed = false)
    (hn : c.name = none) :
    ∃ s', step s (Event.line id (lineOf verbName (some ['a']))) = some s' ∧
      s'.guard = s.guard + 1 ∧
      s'.clients =
        s.clients.map (fun d => if d.id = id then { c with name := some ['a'] } else d) := by
  have hid := (getClient_mem s id c hg).2
  have hval : strlen ['a'] ≠ 0 ∧ is_valid_string ['a'] ≠ 0 := by decide
  have hbody := client_thread_body_name s c (some ['a'])
  have hnb : name_branch s c (some ['a']) = s.setClient { c with name := some ['a'] } := by
    unfold name_branch
    simp only
    rw [if_pos hval, if_pos hn]
  rw [hnb] at hbody
  have hs := step_line s id c (lineOf verbName (some ['a'])) hg hst hcl (by decide)
  rw [client_thread_line_of_body _ _ _ _ _ hbody] at hs
  refine ⟨_, hs, ?_, ?_⟩
  · rfl
  · simp only [if_true, release_lock, Server.setClient, hid]

theorem add_named_connection (s : Server) (hinv : Inv s) (hg : 0 < s.guard) :
    ∃ s', run s [Event.accept none, Event.start (s.clientCount + 1),
        Event.line (s.clientCount + 1) (lineOf verbName (some ['a']))] = some s' ∧
      Inv s' ∧ 0 < s'.guard ∧ s'.namedConnected = s.namedConnected + 1 := by
  have hold : ∀ d ∈ s.clients, d.id ≠ s.clientCount + 1 := by
    intro d hd h
    have := hinv.2.1 d hd
    omega
  have hnone : s.clients.find? (fun c => decide (c.id = s.clientCount + 1)) = none := by
    simp only [List.find?_eq_none, decide_eq_true_eq]
    exact hold
  have hg1 : (process_connections s none).getClient (s.clientCount + 1)
      = some ⟨s.clientCount + 1, none, true, false, false⟩ := by
    simp [Server.getClient, process_connections, List.find?_append, hnone]
  obtain ⟨s2, hs2, hgd2, hcl2⟩ := step_start_spec (process_connections s none) _ _ hg1 rfl hg
  have hcl2' : s2.clients = s.clients ++ [⟨s.clientCount + 1, none, true, true, false⟩] := by
    rw [hcl2]
    simp only [process_connections, List.map_append, List.map_cons, List.map_nil, if_true]
    rw [map_replace_absent _ _ _ hold]
  have hg2 : s2.getClient (s.clientCount + 1)
      = some ⟨s.clientCount + 1, none, true, true, false⟩ := by
    simp [Server.getClient, hcl2', List.find?_append, hnone]
  obtain ⟨s3, hs3, hgd3, hcl3⟩ := step_name_spec s2 _ _ hg2 rfl rfl rfl
  have hcl3' : s3.clients = s.clients ++ [⟨s.clientCount + 1, some ['a'], true, true, false⟩] := by
    rw [hcl3, hcl2']
    simp only [List.map_append, List.map_cons, List.map_nil, if_true]
    rw [map_replace_absent _ _ _ hold]
  have hrun : run s [Event.accept none, Event.start (s.clientCount + 1),
      Event.line (s.clientCount + 1) (lineOf verbName (some ['a']))] = some s3 := by
    have h1 : step s (Event.accept none) = some (process_connections s none) := rfl
    simp only [run, h1, hs2, hs3]
  refine ⟨s3, hrun, inv_run _ _ _ hinv hrun, ?_, ?_⟩
  · rw [hgd3, hgd2]
    have : (process_connections s none).guard = s.guard := rfl
    omega
  · simp only [Server.namedConnected, hcl3', List.filter_append, List.length_append]
    simp

theorem named_connections (k : Nat) :
    ∃ es s, run Server.init es = some s ∧ Inv s ∧ 0 < s.guard ∧ s.namedConnected = k := by
  induction k with
  | zero => exact ⟨[], Server.init, rfl, inv_init, by decide, rfl⟩
  | succ k ih =>
    obtain ⟨es, s, h1, h2, h3, h4⟩ := ih
    obtain ⟨s', h5, h6, h7, h8⟩ := add_named_connection s h2 h3
    exact ⟨es ++ _, s', run_append es _ _ s s' h1 h5, h6, h7, by rw [h8, h4]⟩

/-! ## Lemmas: iteration over a map with entries -/

theorem iterateLoop_spec (count prev : Nat) :
    ∀ (fuel i : Nat), i ≤ prev → prev < i + fuel →
      iterateLoop count prev i fuel = if prev + 1 = count then none else some (prev + 1) := by
  intro fuel
  induction fuel with
  | zero => intro i h1 h2; omega
  | succ n ih =>
    intro i h1 h2
    simp only [iterateLoop]
    by_cases hi : i = prev
    · simp [hi]
    · simp only [hi, if_false]
      exact ih (i + 1) (by omega) (by omega)

theorem stringmap_iterate_nonempty {α : Type} (ops : List (MapOp α))
    (h : 0 < (StringMap.build ops).count) :
    stringmap_iterate (StringMap.build ops) none = some (some 0) ∧
    ∀ i, i < (StringMap.build ops).count →
      stringmap_iterate (StringMap.build ops) (some i) =
        some (if i + 1 = (StringMap.build ops).count then none else some (i + 1)) := by
  have hwf := build_wf ops
  constructor
  · simp only [stringmap_iterate, entries_of_wf _ hwf, hwf.1, h, if_true]
  · intro i hi
    simp only [stringmap_iterate]
    rw [iterateLoop_spec _ i _ 0 (by omega) (by omega)]

/-! ## Lemmas: what remove_client and delete_client do to the subscriber list -/

theorem shiftLoop_spec :
    ∀ (fuel : Nat) (client : List Nat) (i : Nat), i + fuel < client.length →
      ∃ r, shiftLoop client i fuel = some r ∧ r.length = client.length ∧
        ∀ j, r[j]? = if j < i then client[j]?
                     else if j < i + fuel then client[j + 1]? else client[j]? := by
  intro fuel
  induction fuel with
  | zero =>
    intro client i _
    refine ⟨client, rfl, rfl, ?_⟩
    intro j
    by_cases h : j < i <;> simp [h]
  | succ n ih =>
    intro client i h
    have hi : i + 1 < client.length := by omega
    simp only [shiftLoop, List.getElem?_eq_getElem hi]
    obtain ⟨r, h1, h2, h3⟩ := ih (client.set i client[i + 1]) (i + 1) (by simp; omega)
    refine ⟨r, h1, by simpa using h2, ?_⟩
    intro j
    rw [h3 j]
    by_cases hj1 : j < i
    · have : j < i + 1 := by omega
      have hne : i ≠ j := by omega
      simp [hj1, this, List.getElem?_set_ne hne]
    · by_cases hj2 : j = i
      · subst hj2
        have h4 : j < j + (n + 1) := by omega
        simp only [Nat.lt_irrefl, if_false, h4, if_true, Nat.lt_succ_self]
        rw [List.getElem?_set, if_pos rfl, if_pos (by omega)]
        exact (List.getElem?_eq_getElem hi).symm
      · have h5 : ¬ j < i + 1 := by omega
        have hne : i ≠ j := fun h => hj2 h.symm
        have hne1 : i ≠ j + 1 := by omega
        simp only [hj1, h5, if_false]
        by_cases hj3 : j < i + 1 + n
        · have : j < i + (n + 1) := by omega
          simp [hj3, this, List.getElem?_set_ne hne1]
        · have : ¬ j < i + (n + 1) := by omega
          simp [hj3, this, List.getElem?_set_ne hne]

theorem remove_client_spec (a : ClientArray) (i : Nat) (h : a.count ≤ a.used)
    (hi : i < a.count) :
    ∃ a', remove_client a (i : Int) = some a' ∧
      a'.subscribers = a.subscribers.eraseIdx i ∧ a.count = a'.count + 1 ∧
      a'.used = a.used ∧ a'.size = a.size := by
  simp only [ClientArray.used] at h
  have hng : ¬ ((i : Int) < 0 ∨ (i : Int) ≥ (a.count : Int)) := by omega
  obtain ⟨r, hr1, hr2, hr3⟩ := shiftLoop_spec (a.count - 1 - i) a.client i (by omega)
  refine ⟨{ client := r, size := a.size, count := a.count - 1 }, ?_, ?_, ?_, ?_, rfl⟩
  · simp only [remove_client, hng, if_false, Int.toNat_ofNat, hr1]
  · simp only [ClientArray.subscribers]
    apply List.ext_getElem?
    intro j
    rw [List.getElem?_take, List.getElem?_eraseIdx, hr3 j]
    by_cases hj : j < a.count - 1
    · simp only [hj, if_true]
      by_cases hji : j < i
      · have : j < a.count := by omega
        simp [hji, List.getElem?_take, this]
      · have h1 : j < i + (a.count - 1 - i) := by omega
        have h2 : j + 1 < a.count := by omega
        simp [hji, h1, List.getElem?_take, h2]
    · simp only [hj, if_false]
      by_cases hji : j < i
      · omega
      · have h2 : ¬ j + 1 < a.count := by omega
        simp [hji, List.getElem?_take, h2]
  · simp only; omega
  · simp only [ClientArray.used, hr2]

theorem remove_client_out_of_range (a : ClientArray) (index : Int)
    (h : index < 0 ∨ index ≥ (a.count : Int)) : remove_client a index = some a := by
  simp only [remove_client, h, if_true]

theorem findClient_spec (client : List Nat) (x : Nat) :
    ∀ (fuel i : Nat), i + fuel ≤ client.length →
      (findClient client x i fuel = some none ∧ x ∉ (client.drop i).take fuel) ∨
      (∃ j, findClient client x i fuel = some (some j) ∧ i ≤ j ∧ j < i + fuel ∧
        client[j]? = some x ∧ x ∉ (client.drop i).take (j - i)) := by
  intro fuel
  induction fuel with
  | zero => intro i _; left; exact ⟨rfl, by simp⟩
  | succ n ih =>
    intro i h
    have hi : i < client.length := by omega
    have hd : client.drop i = client[i] :: client.drop (i + 1) := List.drop_eq_getElem_cons hi
    simp only [findClient, List.getElem?_eq_getElem hi]
    by_cases hc : client[i] = x
    · right
      refine ⟨i, by simp [hc], Nat.le_refl _, by omega, ?_, by simp⟩
      rw [List.getElem?_eq_getElem hi, hc]
    · simp only [hc, if_false]
      rcases ih (i + 1) (by omega) with ⟨h1, h2⟩ | ⟨j, h1, h2, h3, h4, h5⟩
      · left
        refine ⟨h1, ?_⟩
        rw [hd, List.take_succ_cons]
        intro hm
        rcases List.mem_cons.1 hm with h6 | h6
        · exact hc h6.symm
        · exact h2 h6
      · right
        refine ⟨j, h1, by omega, by omega, h4, ?_⟩
        have hji : j - i = (j - (i + 1)) + 1 := by omega
        rw [hd, hji, List.take_succ_cons]
        intro hm
        rcases List.mem_cons.1 hm with h6 | h6
        · exact hc h6.symm
        · exact h5 h6

theorem erase_eq_eraseIdx_first (x : Nat) :
    ∀ (l : List Nat) (j : Nat), l[j]? = some x → x ∉ l.take j → l.erase x = l.eraseIdx j := by
  intro l
  induction l with
  | nil => intro j h; simp at h
  | cons y ys ih =>
    intro j h hn
    cases j with
    | zero =>
      simp only [List.getElem?_cons_zero, Option.some.injEq] at h
      subst h
      simp
    | succ k =>
      simp only [List.getElem?_cons_succ] at h
      simp only [List.take_succ_cons, List.mem_cons, not_or] at hn
      have hyx : ¬ y = x := fun e => hn.1 e.symm
      rw [List.erase_cons, List.eraseIdx_cons_succ]
      have hb : (y == x) = false := by simp [hyx]
      simp only [hb, Bool.false_eq_true, if_false]
      rw [ih k h hn.2]

theorem delete_client_spec (a : ClientArray) (x : Nat) (h : a.count ≤ a.used) :
    (x ∉ a.subscribers → delete_client a x = some a) ∧
    (x ∈ a.subscribers →
      ∃ a', delete_client a x = some a' ∧ a'.subscribers = a.subscribers.erase x ∧
        a.count = a'.count + 1 ∧ a'.used = a.used ∧ a'.size = a.size) := by
  have hlen : 0 + a.count ≤ a.client.length := by simpa [ClientArray.used] using h
  have hsub : a.subscribers = (a.client.drop 0).take a.count := by
    simp [ClientArray.subscribers]
  rcases findClient_spec a.client x a.count 0 hlen with ⟨h1, h2⟩ | ⟨j, h1, _, h3, h4, h5⟩
  · rw [← hsub] at h2
    refine ⟨fun _ => by simp only [delete_client, h1], fun hm => absurd hm h2⟩
  · have hj : j < a.count := by omega
    have hmem : x ∈ a.subscribers := by
      simp only [ClientArray.subscribers]
      rw [List.mem_iff_getElem?]
      exact ⟨j, by rw [List.getElem?_take, if_pos hj]; exact h4⟩
    refine ⟨fun hn => absurd hmem hn, fun _ => ?_⟩
    obtain ⟨a', h6, h7, h8, h9, h10⟩ := remove_client_spec a j h hj
    refine ⟨a', by simp only [delete_client, h1, h6], ?_, h8, h9, h10⟩
    rw [h7]
    symm
    apply erase_eq_eraseIdx_first
    · simp only [ClientArray.subscribers]
      rw [List.getElem?_take, if_pos hj]; exact h4
    · simp only [ClientArray.subscribers, List.take_take]
      have : min j a.count = j := by omega
      rw [this]
      simpa using h5

/-! ## Lemmas: arrays built by calls -/

theorem init_client_array_wf_of_pos (n : Nat) (h : 1 ≤ n) : ArrWF (init_client_array n) := by
  simp only [ArrWF, init_client_array, List.length_nil]
  omega

theorem remove_client_wf_int (a : ClientArray) (index : Int) (h : ArrWF a) :
    ∃ a', remove_client a index = some a' ∧ ArrWF a' := by
  by_cases hr : index < 0 ∨ index ≥ (a.count : Int)
  · exact ⟨a, remove_client_out_of_range a index hr, h⟩
  · have hi : ((index.toNat : Nat) : Int) = index := Int.toNat_of_nonneg (by omega)
    rw [← hi]
    exact remove_client_wf a index.toNat h

theorem apply_wf (a : ClientArray) (op : ArrOp) (h : ArrWF a) :
    ∃ a', a.apply op = some a' ∧ ArrWF a' := by
  cases op with
  | insert x =>
    obtain ⟨a', r, h1, h2⟩ := insert_client_array_wf a x h
    exact ⟨a', by simp only [ClientArray.apply, h1], h2⟩
  | remove index => exact remove_client_wf_int a index h
  | delete x => exact delete_client_wf a x h

theorem applyAll_wf : ∀ (ops : List ArrOp) (a : ClientArray), ArrWF a →
    ∃ a', a.applyAll ops = some a' ∧ ArrWF a' := by
  intro ops
  induction ops with
  | nil => intro a h; exact ⟨a, rfl, h⟩
  | cons op ops ih =>
    intro a h
    obtain ⟨a1, h1, h2⟩ := apply_wf a op h
    obtain ⟨a2, h3, h4⟩ := ih a1 h2
    exact ⟨a2, by simp only [ClientArray.applyAll, h1, h3], h4⟩

/-! ## Lemmas: decimal numerals -/

theorem atoiDigits_eq_foldl : ∀ (s : CString) (acc : Nat), (∀ c ∈ s, '0' ≤ c ∧ c ≤ '9') →
    atoiDigits s acc = s.foldl (fun acc c => 10 * acc + (c.toNat - '0'.toNat)) acc := by
  intro s
  induction s with
  | nil => intro acc _; rfl
  | cons c cs ih =>
    intro acc h
    have hc : isdigit c = true := by
      simp only [isdigit, decide_eq_true_eq]
      exact h c (by simp)
    simp only [atoiDigits, hc, if_true, List.foldl_cons]
    rw [ih _ (fun d hd => h d (by simp [hd])), Nat.mul_comm]

theorem numeral_facts (s : CString) (h : IsNumeral s) :
    firstIsDigit s = true ∧ atoiDigits s 0 = decimalValue s := by
  refine ⟨?_, atoiDigits_eq_foldl s 0 h.2⟩
  cases s with
  | nil => exact absurd rfl h.1
  | cons c cs =>
    simp only [firstIsDigit, isdigit, decide_eq_true_eq]
    exact h.2 c (by simp)

/-- C1, evaluated on the code: clients 1 and 2 subscribe to topic `t`, client 1
unsubscribes and subscribes again.  `remove_client` lowers `count` but not
`used`, so `insert_client_array` writes client 1 into slot 2 while `count`
becomes 2: the subscriber list of `t` (the first `count` slots) is then
`[2, 2]`, client 2 twice and client 1 not at all. -/
theorem C1_subscriber_listed_twice :
    (run Server.init
      [Event.accept none, Event.start 1, Event.line 1 ("name a".toList), Event.line 1 ("sub t".toList),
       Event.accept none, Event.start 2, Event.line 2 ("name b".toList), Event.line 2 ("sub t".toList),
       Event.line 1 ("unsub t".toList), Event.line 1 ("sub t".toList)]).map
      (fun s => (s.subscribers_of "t".toList,
        (stringmap_search s.sm (some "t".toList)).map (fun a => (a.client, a.size, a.count))))
      = some ([2, 2], some ([2, 2, 1], 4, 2)) := by
  decide

/-- C2, evaluated on the code: client 1 subscribes to `t` and unsubscribes, then
client 2 is named and subscribes to `t` with no later `unsub`; when the named
client 1 publishes `pub t x`, the only write goes to client 1, and the line
`a:t:x` is not written to the subscriber 2. -/
theorem C2_subscriber_not_served :
    (run Server.init
      [Event.accept none, Event.start 1, Event.line 1 ("name a".toList), Event.line 1 ("sub t".toList),
       Event.line 1 ("unsub t".toList),
       Event.accept none, Event.start 2, Event.line 2 ("name b".toList), Event.line 2 ("sub t".toList),
       Event.line 1 ("pub t x".toList)]).map (fun s => s.out)
      = some [(1, "a:t:x\n".toList)] := by
  decide

/-- C3, evaluated on the code: client 1 subscribes to `t`, unsubscribes and never
subscribes again; after client 2 has subscribed to `t`, the line `pub t x` of
client 2 is written to client 1 (and to nobody else). -/
theorem C3_unsubscribed_still_served :
    (run Server.init
      [Event.accept none, Event.start 1, Event.line 1 ("name a".toList), Event.line 1 ("sub t".toList),
       Event.line 1 ("unsub t".toList),
       Event.accept none, Event.start 2, Event.line 2 ("name b".toList), Event.line 2 ("sub t".toList),
       Event.line 2 ("pub t x".toList)]).map (fun s => (s.subscribers_of "t".toList, s.out))
      = some ([1], [(1, "b:t:x\n".toList)]) := by
  decide

/-- C5, evaluated on the code: client 1 subscribes to `t` and its handler reaches
end-of-stream.  The end of `client_thread` closes the streams and leaves the
index as it is: client 1 is still listed under `t`.  The fan-out of the next
`pub t x` (by client 2) therefore reaches the closed stream of client 1, where
its `fprintf` has no defined behaviour: the run has no defined result.  Sent
before the end-of-stream, the same line is written to client 1. -/
theorem C5_disconnect_keeps_subscription :
    (run Server.init
      [Event.accept none, Event.start 1, Event.line 1 ("name a".toList), Event.line 1 ("sub t".toList),
       Event.accept none, Event.start 2, Event.line 2 ("name b".toList),
       Event.eof 1]).map
      (fun s => ((s.getClient 1).map (fun c => c.closed), s.subscribers_of "t".toList, s.out))
      = some (some true, [1], []) ∧
    run Server.init
      [Event.accept none, Event.start 1, Event.line 1 ("name a".toList), Event.line 1 ("sub t".toList),
       Event.accept none, Event.start 2, Event.line 2 ("name b".toList),
       Event.eof 1, Event.line 2 ("pub t x".toList)] = none ∧
    (run Server.init
      [Event.accept none, Event.start 1, Event.line 1 ("name a".toList), Event.line 1 ("sub t".toList),
       Event.accept none, Event.start 2, Event.line 2 ("name b".toList),
       Event.line 2 ("pub t x".toList)]).map (fun s => s.out)
      = some [(1, "b:t:x\n".toList)] := by
  decide

/-- C6 fails as stated: for the named connection 1 the line `sub a:b` (a topic
with a colon) is not answered at all, and it adds the topic `a:b` with
subscriber 1 to the index, which held no topic before. -/
theorem C6_counterexample :
    (run Server.init
      [Event.accept none, Event.start 1, Event.line 1 ("name a".toList)]).map
      (fun s => (s.sm.entries.length, s.out)) = some (0, []) ∧
    (run Server.init
      [Event.accept none, Event.start 1, Event.line 1 ("name a".toList),
       Event.line 1 ("sub a:b".toList)]).map
      (fun s => (s.sm.entries.length, s.subscribers_of "a:b".toList, s.out))
      = some (1, [1], []) := by
  decide

/-- C6, as amended: for a named connection, a `pub` line whose tail is missing or
empty is answered with the line `:invalid` on that connection and leaves the
topic index unchanged; every `pub` line leaves the topic index unchanged (and
its processing has a defined result when no connection on a subscriber list has
closed its stream); a `sub` or `unsub` line, whatever its topic, is processed
without any write (no `:invalid`), and with a missing topic it leaves the topic
index unchanged. -/
theorem C6_amended (s : Server) (id : Nat) (c : Client) (n : CString)
    (tail : Option CString) (hr : Reachable s) (hg : s.getClient id = some c)
    (hst : c.started = true) (hcl : c.closed = false) (hn : c.name = some n) :
    ((tail = none ∨ tail = some []) →
      ∃ s', step s (Event.line id (lineOf verbPub tail)) = some s' ∧
        newWrites s s' = [(id, invalidLine)] ∧ s'.sm = s.sm) ∧
    ('\n' ∉ lineOf verbPub tail →
      (∀ s', step s (Event.line id (lineOf verbPub tail)) = some s' → s'.sm = s.sm) ∧
      (s.listedOpen →
        ∃ s', step s (Event.line id (lineOf verbPub tail)) = some s' ∧ s'.sm = s.sm)) ∧
    (∀ v, (v = verbSub ∨ v = verbUnsub) → '\n' ∉ lineOf v tail →
      ∃ s', step s (Event.line id (lineOf v tail)) = some s' ∧
        newWrites s s' = [] ∧ (tail = none → s'.sm = s.sm)) := by
  have hinv := inv_reachable s hr
  have hid : c.id = id := (getClient_mem s id c hg).2
  refine ⟨?_, ?_, ?_⟩
  · intro ht
    have hl : '\n' ∉ lineOf verbPub tail := by
      rcases ht with h | h <;> subst h <;> decide
    have hb : client_thread_body s c (lineOf verbPub tail)
        = some (fprintf s c.id invalidLine, false) := by
      rw [client_thread_body_pub]
      rcases ht with h | h <;> subst h <;> simp [pub_branch, strlen]
    rw [step_line s id c _ hg hst hcl hl, client_thread_line_of_body s c _ _ _ hb]
    refine ⟨_, rfl, ?_, rfl⟩
    rw [← hid]
    exact newWrites_append s _ [(c.id, invalidLine)] rfl
  · intro hl
    constructor
    · intro s' hs
      rw [step_line s id c _ hg hst hcl hl] at hs
      obtain ⟨s1, b, hb, h1, _⟩ := client_thread_line_some s c _ s' hs
      rw [client_thread_body_pub] at hb
      rw [h1, (pub_branch_frame s c tail s1 b hb).2.1]
    · intro hopen
      obtain ⟨s1, b, hb⟩ := pub_branch_wf s c tail hinv.1 hopen
      have hf := pub_branch_frame s c tail s1 b hb
      rw [← client_thread_body_pub] at hb
      rw [step_line s id c _ hg hst hcl hl, client_thread_line_of_body s c _ _ _ hb]
      refine ⟨_, rfl, ?_⟩
      cases b <;> simp [release_lock, hf.2.1]
  · intro v hv hl
    have hne : c.name ≠ none := by rw [hn]; simp
    rcases hv with hv | hv
    · subst hv
      obtain ⟨s1, b, hb, _⟩ := sub_branch_wf s c tail hinv.1
      have hf := sub_branch_frame s c tail s1 b hb
      have hsm : tail = none → s1.sm = s.sm := by
        intro ht
        subst ht
        simp [sub_branch, hne, stringmap_search, insert_client_array, init_client_array,
          findClient, ClientArray.used, stringmap_add] at hb
        rw [← hb.1]
      rw [← client_thread_body_sub] at hb
      rw [step_line s id c _ hg hst hcl hl, client_thread_line_of_body s c _ _ _ hb]
      refine ⟨_, rfl, ?_, ?_⟩
      · apply newWrites_append
        cases b <;> simp [release_lock, hf.2.1]
      · intro ht
        cases b <;> simp [release_lock, hsm ht]
    · subst hv
      obtain ⟨s1, b, hb, _⟩ := unsub_branch_wf s c tail hinv.1
      have hf := unsub_branch_frame s c tail s1 b hb
      have hsm : tail = none → s1.sm = s.sm := by
        intro ht
        subst ht
        simp [unsub_branch, hne, stringmap_search] at hb
        rw [← hb.1]
      rw [← client_thread_body_unsub] at hb
      rw [step_line s id c _ hg hst hcl hl, client_thread_line_of_body s c _ _ _ hb]
      refine ⟨_, rfl, ?_, ?_⟩
      · apply newWrites_append
        cases b <;> simp [release_lock, hf.2.1]
      · intro ht
        cases b <;> simp [release_lock, hsm ht]

/-- C6, as amended, on a concrete state: the connection 1 is named `a`; its line
`pub` is answered with `:invalid`, its line `sub` writes nothing, and both leave
the (empty) topic index unchanged. -/
theorem C6_amended_witness :
    (∃ s', step
        { clientCount := 1, clients := [⟨1, some "a".toList, true, true, false⟩],
          sm := stringmap_init, statistics := [0, 0, 0, 0, 0], guard := 1, out := [] }
        (Event.line 1 (lineOf verbPub none)) = some s' ∧
      s'.out = [(1, invalidLine)] ∧ s'.sm = stringmap_init) ∧
    (∃ s', step
        { clientCount := 1, clients := [⟨1, some "a".toList, true, true, false⟩],
          sm := stringmap_init, statistics := [0, 0, 0, 0, 0], guard := 1, out := [] }
        (Event.line 1 (lineOf verbSub none)) = some s' ∧
      s'.out = [] ∧ s'.sm = stringmap_init) := by
  have h := C6_amended
    { clientCount := 1, clients := [⟨1, some "a".toList, true, true, false⟩],
      sm := stringmap_init, statistics := [0, 0, 0, 0, 0], guard := 1, out := [] }
    1 ⟨1, some "a".toList, true, true, false⟩ "a".toList none
    ⟨[Event.accept none, Event.start 1, Event.line 1 ("name a".toList)], by decide⟩
    (by decide) rfl rfl rfl
  obtain ⟨s1, h1, h2, h3⟩ := h.1 (Or.inl rfl)
  obtain ⟨s2, h4, h5, h6⟩ := h.2.2 verbSub (Or.inl rfl) (by decide)
  exact ⟨⟨s1, h1, by simpa [newWrites] using h2, h3⟩,
    ⟨s2, h4, by simpa [newWrites] using h5, h6 rfl⟩⟩

/-- C7 fails as stated: the connection 1 has no name yet and sends the line
`pub` (no tail); the handler writes `:invalid` to it. -/
theorem C7_counterexample :
    (run Server.init [Event.accept none, Event.start 1, Event.line 1 ("pub".toList)]).map
      (fun s => (s.nameOf 1, s.out)) = some (none, [(1, ":invalid\n".toList)]) := by
  decide

/-- C7, as amended: for a connection that has not yet been named, every line
whose verb is `sub`, `unsub` or `pub`, whatever its tail, leaves the topic index
and the client table (the connection's own state) unchanged and writes nothing
to any other connection; it writes nothing at all and leaves the whole state as
it is, except that a `pub` line whose tail is missing or empty is answered with
`:invalid` on the connection itself. -/
theorem C7_amended (s : Server) (id : Nat) (c : Client) (v : CString)
    (tail : Option CString) (hg : s.getClient id = some c)
    (hst : c.started = true) (hcl : c.closed = false) (hn : c.name = none)
    (hv : v = verbSub ∨ v = verbUnsub ∨ v = verbPub) (hl : '\n' ∉ lineOf v tail) :
    ∃ s', step s (Event.line id (lineOf v tail)) = some s' ∧
      s'.sm = s.sm ∧ s'.clients = s.clients ∧
      (∀ r text, r ≠ id → (r, text) ∉ newWrites s s') ∧
      (¬ (v = verbPub ∧ (tail = none ∨ tail = some [])) → s' = s) ∧
      (v = verbPub ∧ (tail = none ∨ tail = some []) →
        newWrites s s' = [(id, invalidLine)]) := by
  have hid : c.id = id := (getClient_mem s id c hg).2
  have hsilent : client_thread_body s c (lineOf v tail) = some (s, false) →
      ∃ s', step s (Event.line id (lineOf v tail)) = some s' ∧
        s'.sm = s.sm ∧ s'.clients = s.clients ∧
        (∀ r text, r ≠ id → (r, text) ∉ newWrites s s') ∧ s' = s := by
    intro hb
    rw [step_line s id c _ hg hst hcl hl, client_thread_line_of_body s c _ _ _ hb]
    refine ⟨s, rfl, rfl, rfl, ?_, rfl⟩
    intro r text _
    simp [newWrites]
  have hinvalid : client_thread_body s c (lineOf v tail)
        = some (fprintf s c.id invalidLine, false) →
      ∃ s', step s (Event.line id (lineOf v tail)) = some s' ∧
        s'.sm = s.sm ∧ s'.clients = s.clients ∧
        (∀ r text, r ≠ id → (r, text) ∉ newWrites s s') ∧
        newWrites s s' = [(id, invalidLine)] := by
    intro hb
    rw [step_line s id c _ hg hst hcl hl, client_thread_line_of_body s c _ _ _ hb]
    have hw : newWrites s (fprintf s c.id invalidLine) = [(id, invalidLine)] := by
      rw [← hid]; exact newWrites_append s _ [(c.id, invalidLine)] rfl
    refine ⟨_, rfl, rfl, rfl, ?_, hw⟩
    intro r text hr hmem
    simp only [Bool.false_eq_true, if_false] at hmem
    rw [hw] at hmem
    simp only [List.mem_singleton, Prod.mk.injEq] at hmem
    exact hr hmem.1
  rcases hv with hv | hv | hv
  · subst hv
    obtain ⟨s', h1, h2, h3, h4, h5⟩ := hsilent (by
      rw [client_thread_body_sub]; simp [sub_branch, hn])
    exact ⟨s', h1, h2, h3, h4, fun _ => h5, fun h => absurd h.1 (by decide)⟩
  · subst hv
    obtain ⟨s', h1, h2, h3, h4, h5⟩ := hsilent (by
      rw [client_thread_body_unsub]; simp [unsub_branch, hn])
    exact ⟨s', h1, h2, h3, h4, fun _ => h5, fun h => absurd h.1 (by decide)⟩
  · subst hv
    by_cases ht : tail = none ∨ tail = some []
    · obtain ⟨s', h1, h2, h3, h4, h5⟩ := hinvalid (by
        rw [client_thread_body_pub]
        rcases ht with h | h <;> subst h <;> simp [pub_branch, strlen])
      exact ⟨s', h1, h2, h3, h4, fun h => absurd ⟨rfl, ht⟩ h, fun _ => h5⟩
    · obtain ⟨s', h1, h2, h3, h4, h5⟩ := hsilent (by
        rw [client_thread_body_pub]
        cases tail with
        | none => exact absurd (Or.inl rfl) ht
        | some t =>
          have : ¬ strlen t = 0 := fun h => ht (Or.inr (by rw [List.length_eq_zero.1 h]))
          simp [pub_branch, this, hn])
      exact ⟨s', h1, h2, h3, h4, fun _ => h5, fun h => absurd h.2 ht⟩

/-- C7, as amended, on a concrete state: the connection 1 has no name; its line
`sub t` leaves the state as it is. -/
theorem C7_amended_witness :
    ∃ s', step
        { clientCount := 1, clients := [⟨1, none, true, true, false⟩],
          sm := stringmap_init, statistics := [0, 0, 0, 0, 0], guard := 0, out := [] }
        (Event.line 1 (lineOf verbSub (some "t".toList))) = some s' ∧
      s' = { clientCount := 1, clients := [⟨1, none, true, true, false⟩],
             sm := stringmap_init, statistics := [0, 0, 0, 0, 0], guard := 0, out := [] } := by
  obtain ⟨s', h1, _, _, _, h5, _⟩ := C7_amended
    { clientCount := 1, clients := [⟨1, none, true, true, false⟩],
      sm := stringmap_init, statistics := [0, 0, 0, 0, 0], guard := 0, out := [] }
    1 ⟨1, none, true, true, false⟩ verbSub (some "t".toList)
    (by decide) rfl rfl rfl (Or.inl rfl) (by decide)
  exact ⟨s', h1, h5 (fun h => absurd h.1 (by decide))⟩

/-- C8 fails as stated: the connection 1 is named `a` and sends `name a:b` (an
invalid tail); the handler writes `:invalid` to it. -/
theorem C8_counterexample :
    (run Server.init
      [Event.accept none, Event.start 1, Event.line 1 ("name a".toList),
       Event.line 1 ("name a:b".toList)]).map
      (fun s => (s.nameOf 1, s.out)) = some (some "a".toList, [(1, ":invalid\n".toList)]) := by
  decide

/-- C8, as amended: for a connection that is already named, every line whose
verb is `name`, whatever its tail, leaves the display name (the whole client
table) and the topic index unchanged and writes nothing to any other
connection; when its tail is a valid string nothing is written at all, and when
its tail is missing, empty or not a valid string the line is answered with
`:invalid` on the connection itself. -/
theorem C8_amended (s : Server) (id : Nat) (c : Client) (n : CString)
    (tail : Option CString) (hg : s.getClient id = some c)
    (hst : c.started = true) (hcl : c.closed = false) (hn : c.name = some n)
    (hl : '\n' ∉ lineOf verbName tail) :
    ∃ s', step s (Event.line id (lineOf verbName tail)) = some s' ∧
      s'.sm = s.sm ∧ s'.clients = s.clients ∧
      (∀ r text, r ≠ id → (r, text) ∉ newWrites s s') ∧
      ((∃ t, tail = some t ∧ ValidString t) → newWrites s s' = []) ∧
      ((¬ ∃ t, tail = some t ∧ ValidString t) → newWrites s s' = [(id, invalidLine)]) := by
  have hid : c.id = id := (getClient_mem s id c hg).2
  have hb := client_thread_body_name s c tail
  rw [step_line s id c _ hg hst hcl hl, client_thread_line_of_body s c _ _ _ hb]
  simp only [if_true]
  rcases name_branch_cases s c tail with ⟨h1, h2⟩ | ⟨t, h1, h2, h3⟩
  · have hw : newWrites s (release_lock (name_branch s c tail)) = [(id, invalidLine)] := by
      rw [← hid]; exact newWrites_append s _ [(c.id, invalidLine)] (by rw [h1]; rfl)
    refine ⟨_, rfl, by rw [h1]; rfl, by rw [h1]; rfl, ?_, ?_, fun _ => hw⟩
    · intro r text hr hmem
      rw [hw] at hmem
      simp only [List.mem_singleton, Prod.mk.injEq] at hmem
      exact hr hmem.1
    · rintro ⟨t, ht, hv⟩
      exact absurd ⟨t, ht, (is_valid_string_ne_zero t).2 hv⟩ h2
  · have hs : name_branch s c tail = s := by rw [h3, hn]; simp
    have hw : newWrites s (release_lock (name_branch s c tail)) = [] :=
      newWrites_append s _ [] (by rw [hs]; simp [release_lock])
    refine ⟨_, rfl, by rw [hs]; rfl, by rw [hs]; rfl, ?_, fun _ => hw, ?_⟩
    · intro r text _ hmem
      rw [hw] at hmem
      simp at hmem
    · intro hno
      exact absurd ⟨t, h1, (is_valid_string_ne_zero t).1 h2⟩ hno

/-- C8, as amended, on a concrete state: the connection 1 is named `a`; its line
`name b` writes nothing and leaves the client table as it is. -/
theorem C8_amended_witness :
    ∃ s', step
        { clientCount := 1, clients := [⟨1, some "a".toList, true, true, false⟩],
          sm := stringmap_init, statistics := [0, 0, 0, 0, 0], guard := 1, out := [] }
        (Event.line 1 (lineOf verbName (some "b".toList))) = some s' ∧
      s'.clients = [⟨1, some "a".toList, true, true, false⟩] ∧ s'.out = [] := by
  obtain ⟨s', h1, _, h3, _, h5, _⟩ := C8_amended
    { clientCount := 1, clients := [⟨1, some "a".toList, true, true, false⟩],
      sm := stringmap_init, statistics := [0, 0, 0, 0, 0], guard := 1, out := [] }
    1 ⟨1, some "a".toList, true, true, false⟩ "a".toList (some "b".toList)
    (by decide) rfl rfl rfl (by decide)
  exact ⟨s', h1, h3, by
    simpa [newWrites] using h5 ⟨"b".toList, rfl, by unfold ValidString; decide⟩⟩

/-- C9, evaluated on the code: the struct of connection 1 comes from `malloc`
with its field `name`, which `process_connections` never assigns, pointing to
the text `x y`.  The display name is then set before any line is read.  The
line `name c`, the connection's first `name` line with a valid tail, is accepted
without an answer and changes nothing, since `client->name` is not NULL: the
display name is `x y` before and after, never the tail `c`, and it holds a
space.  The connection's `sub t` and `pub t hi` are served under that name. -/
theorem C9_name_never_assigned :
    (run Server.init [Event.accept (some "x y".toList), Event.start 1]).map
      (fun s => s.nameOf 1) = some (some "x y".toList) ∧
    (run Server.init
      [Event.accept (some "x y".toList), Event.start 1, Event.line 1 ("name c".toList)]).map
      (fun s => (s.nameOf 1, s.out)) = some (some "x y".toList, []) ∧
    firstName 1
      [Event.accept (some "x y".toList), Event.start 1, Event.line 1 ("name c".toList)]
      = some "c".toList ∧
    (run Server.init
      [Event.accept (some "x y".toList), Event.start 1, Event.line 1 ("name c".toList),
       Event.line 1 ("sub t".toList), Event.line 1 ("pub t hi".toList)]).map
      (fun s => (s.nameOf 1, s.out)) = some (some "x y".toList, [(1, "x y:t:hi\n".toList)]) ∧
    ' ' ∈ "x y".toList := by
  decide

/-- C10: whenever processing a line of connection `id` in a reachable state
writes `:invalid` to some connection, the topic index, the five counters and
the client table (the display names with it) are the same after the line as
before it, and the single write of the step is that `:invalid`, made to the
connection `id` itself: nothing is written to any other connection. -/
theorem C10_invalid_changes_nothing (s : Server) (id : Nat) (l : CString) (s' : Server)
    (hr : Reachable s) (hs : step s (Event.line id l) = some s')
    (hw : ∃ r, (r, invalidLine) ∈ newWrites s s') :
    s'.sm = s.sm ∧ s'.statistics = s.statistics ∧ s'.clients = s.clients ∧
      newWrites s s' = [(id, invalidLine)] := by
  have hinv := inv_reachable s hr
  obtain ⟨r, hw⟩ := hw
  obtain ⟨c, hg, hline⟩ := step_line_some s id l s' hs
  obtain ⟨hcm, hid⟩ := getClient_mem s id c hg
  obtain ⟨s1, b, hb, h1, h2, _, h4, h5, _⟩ := client_thread_line_some s c l s' hline
  have hnw : newWrites s s' = newWrites s s1 := by simp [newWrites, h5]
  rw [hnw] at hw ⊢
  rw [h1, h2, h4]
  have good : s1 = fprintf s c.id invalidLine →
      s1.sm = s.sm ∧ s1.statistics = s.statistics ∧ s1.clients = s.clients ∧
        newWrites s s1 = [(id, invalidLine)] := by
    intro h
    subst h
    refine ⟨rfl, rfl, rfl, ?_⟩
    rw [← hid]
    exact newWrites_append s _ [(c.id, invalidLine)] rfl
  have silent : s1.out = s.out → False := by
    intro h
    rw [newWrites_append s s1 [] (by simp [h])] at hw
    simp at hw
  rcases client_thread_body_cases s c l s1 b hb with ⟨_, h6, _⟩ | ⟨_, h6 | h6 | h6 | ⟨h6, _⟩⟩
  · rcases name_branch_cases s c (split_by_char l ' ' 2)[1]? with ⟨h7, _⟩ | ⟨t, _, _, h7⟩
    · exact good (h6.trans h7)
    · exfalso
      apply silent
      rw [h6, h7]
      split <;> rfl
  · exact (silent (sub_branch_frame _ _ _ _ _ h6).2.1).elim
  · rcases pub_branch_cases _ _ _ _ _ h6 with ⟨h7, _⟩ | ⟨h7, _⟩ | ⟨n, t, p, cs, hn, _, h7⟩
    · exact good h7
    · exact (silent (by rw [h7])).elim
    · exfalso
      rw [newWrites_append s s1 (List.map (fun r => (r, pubLine n t p)) cs) (by rw [h7])] at hw
      simp only [List.mem_map, Prod.mk.injEq] at hw
      obtain ⟨_, _, _, h8⟩ := hw
      exact pubLine_ne_invalidLine n t p h8
  · exact (silent (unsub_branch_frame _ _ _ _ _ h6).2.1).elim
  · exact good h6

/-- C10 on a concrete step: the unnamed connection 1 sends `hello`, an unknown
verb. -/
theorem C10_invalid_changes_nothing_witness :
    (∃ r, (r, invalidLine) ∈ newWrites
        { clientCount := 1, clients := [⟨1, none, true, true, false⟩],
          sm := stringmap_init, statistics := [0, 0, 0, 0, 0], guard := 0, out := [] }
        { clientCount := 1, clients := [⟨1, none, true, true, false⟩],
          sm := stringmap_init, statistics := [0, 0, 0, 0, 0], guard := 1,
          out := [(1, invalidLine)] }) ∧
    newWrites
        { clientCount := 1, clients := [⟨1, none, true, true, false⟩],
          sm := stringmap_init, statistics := [0, 0, 0, 0, 0], guard := 0, out := [] }
        { clientCount := 1, clients := [⟨1, none, true, true, false⟩],
          sm := stringmap_init, statistics := [0, 0, 0, 0, 0], guard := 1,
          out := [(1, invalidLine)] } = [(1, invalidLine)] :=
  ⟨⟨1, by decide⟩,
   (C10_invalid_changes_nothing
      { clientCount := 1, clients := [⟨1, none, true, true, false⟩],
        sm := stringmap_init, statistics := [0, 0, 0, 0, 0], guard := 0, out := [] }
      1 "hello".toList
      { clientCount := 1, clients := [⟨1, none, true, true, false⟩],
        sm := stringmap_init, statistics := [0, 0, 0, 0, 0], guard := 1,
        out := [(1, invalidLine)] }
      ⟨[Event.accept none, Event.start 1], by decide⟩ (by decide) ⟨1, by decide⟩).2.2.2⟩

/-- C11: in a reachable state, for a connection in any state, a line whose verb
(the text before the first space) is none of `name`, `sub`, `unsub`, `pub` (the
empty line included), and for a named connection a `pub` line with a topic and a
missing or empty payload (`pub T`, `pub T` followed by a space), makes the
handler write the single line `:invalid` to that connection and nothing to any
other; the topic index and the client table are unchanged, and the handler goes
on: the connection is still started and open, and every next line of the
connection is processed (with a defined result as long as no connection on a
subscriber list has closed its stream). -/
theorem C11_invalid_line (s : Server) (id : Nat) (c : Client) (l : CString)
    (hr : Reachable s) (hg : s.getClient id = some c) (hst : c.started = true)
    (hcl : c.closed = false) (hl : '\n' ∉ l)
    (hcase :
      (∃ v tail, l = lineOf v tail ∧ ' ' ∉ v ∧
        v ≠ verbName ∧ v ≠ verbSub ∧ v ≠ verbUnsub ∧ v ≠ verbPub) ∨
      (∃ n T, c.name = some n ∧ ' ' ∉ T ∧
        (l = lineOf verbPub (some T) ∨ l = lineOf verbPub (some (T ++ [' ']))))) :
    ∃ s', step s (Event.line id l) = some s' ∧ newWrites s s' = [(id, invalidLine)] ∧
      s'.sm = s.sm ∧ s'.clients = s.clients ∧ s'.getClient id = some c ∧
      (s.listedOpen → ∀ l', '\n' ∉ l' → ∃ s'', step s' (Event.line id l') = some s'') := by
  have hinv := inv_reachable s hr
  rcases hcase with ⟨v, tail, h0, hv, h1, h2, h3, h4⟩ | ⟨n, T, hn, hT, h0 | h0⟩
  · subst h0
    exact step_line_invalid s id c _ true hinv hg hst hcl hl
      (client_thread_body_unknown s c v tail hv h1 h2 h3 h4)
  · subst h0
    exact step_line_invalid s id c _ false hinv hg hst hcl hl
      (by rw [client_thread_body_pub]; exact (pub_branch_no_payload s c n T hn hT).1)
  · subst h0
    exact step_line_invalid s id c _ false hinv hg hst hcl hl
      (by rw [client_thread_body_pub]; exact (pub_branch_no_payload s c n T hn hT).2)

/-- C11 on a concrete state: the connection 1, named `a`, sends `pub t` (no
payload). -/
theorem C11_invalid_line_witness :
    ∃ s', step
        { clientCount := 1, clients := [⟨1, some "a".toList, true, true, false⟩],
          sm := stringmap_init, statistics := [0, 0, 0, 0, 0], guard := 1, out := [] }
        (Event.line 1 ("pub t".toList)) = some s' ∧
      s'.out = [(1, ":invalid\n".toList)] ∧
      ∃ s'', step s' (Event.line 1 ("sub t".toList)) = some s'' := by
  obtain ⟨s', h1, h2, _, _, _, h5⟩ := C11_invalid_line
    { clientCount := 1, clients := [⟨1, some "a".toList, true, true, false⟩],
      sm := stringmap_init, statistics := [0, 0, 0, 0, 0], guard := 1, out := [] }
    1 ⟨1, some "a".toList, true, true, false⟩ ("pub t".toList)
    ⟨[Event.accept none, Event.start 1, Event.line 1 ("name a".toList)], by decide⟩
    (by decide) rfl rfl (by decide)
    (Or.inr ⟨"a".toList, "t".toList, rfl, by decide, Or.inl (by decide)⟩)
  exact ⟨s', h1, by simpa [newWrites, invalidLine] using h2, h5 (by decide) _ (by decide)⟩

/-- C12 fails as stated: the connection 1, named `a`, subscribes to the topic
`a:b` and publishes `pub a:b x`.  The line delivered to the subscriber of the
topic `a:b` is `a:a:b:x`: its topic holds a colon, and the text between the
first two colons of the line is `a`, a topic without subscribers. -/
theorem C12_counterexample :
    (run Server.init
      [Event.accept none, Event.start 1, Event.line 1 ("name a".toList),
       Event.line 1 ("sub a:b".toList), Event.line 1 ("pub a:b x".toList)]).map
      (fun s => (s.subscribers_of "a:b".toList, s.subscribers_of "a".toList, s.out))
      = some ([1], [], [(1, "a:a:b:x\n".toList)]) ∧
    "a:a:b:x\n".toList = "a".toList ++ [':'] ++ "a:b".toList ++ [':'] ++ "x".toList ++ ['\n'] ∧
    ("a:a:b:x\n".toList.drop ("a".toList.length + 1)).takeWhile (fun ch => ch != ':')
      = "a".toList ∧
    ':' ∈ "a:b".toList := by
  decide

/-- C12, as amended: every line written while a line of connection `id` is
processed, in a state reached by a sequence of events `es`, is either the answer
`:invalid` to that connection or a fan-out line `name:topic:payload` with a
newline, written to a subscriber of the topic, in which `name` is the sender's
display name, `topic` contains no space and no newline (it may contain colons:
topics are not validated) and `payload` is non-empty and contains no newline.
For a sender whose field `name` was NULL when its connection was accepted, the
name is the tail of the connection's first accepted `name` line, a valid string
(non-empty, no space, colon or newline).  When the name has no colon, the first
colon of a fan-out line ends the name, and when the topic has no colon the colon
after it ends the topic. -/
theorem C12_amended (es : List Event) (s : Server) (id : Nat) (l : CString) (s' : Server)
    (r : Nat) (text : CString) (hr : run Server.init es = some s)
    (hs : step s (Event.line id l) = some s') (hw : (r, text) ∈ newWrites s s') :
    (text = invalidLine ∧ r = id) ∨
    ∃ n T P, s.nameOf id = some n ∧ r ∈ s.subscribers_of T ∧
      text = n ++ [':'] ++ T ++ [':'] ++ P ++ ['\n'] ∧
      ' ' ∉ T ∧ '\n' ∉ T ∧ P ≠ [] ∧ '\n' ∉ P ∧
      (nameAtAccept 0 id es = some none → firstName id es = some n ∧ ValidString n) ∧
      (':' ∉ n → text.takeWhile (fun ch => ch != ':') = n) ∧
      (':' ∉ T → (text.drop (n.length + 1)).takeWhile (fun ch => ch != ':') = T) := by
  have hinv := inv_reachable s ⟨es, hr⟩
  have hl : '\n' ∉ l := by
    simp only [step] at hs
    cases hg : s.getClient id with
    | none => simp [hg] at hs
    | some c =>
      simp only [hg] at hs
      split at hs
      · rename_i h; exact h.2.2
      · cases hs
  obtain ⟨c, hg, hline⟩ := step_line_some s id l s' hs
  obtain ⟨hcm, hid⟩ := getClient_mem s id c hg
  obtain ⟨s1, b, hb, _, _, _, _, h5, _⟩ := client_thread_line_some s c l s' hline
  have hnw : newWrites s s' = newWrites s s1 := by simp [newWrites, h5]
  rw [hnw] at hw
  have good : s1 = fprintf s c.id invalidLine → text = invalidLine ∧ r = id := by
    intro h
    rw [newWrites_append s s1 [(c.id, invalidLine)] (by rw [h]; rfl)] at hw
    simp only [List.mem_singleton, Prod.mk.injEq] at hw
    exact ⟨hw.2, hw.1.trans hid⟩
  have silent : s1.out = s.out → False := by
    intro h
    rw [newWrites_append s s1 [] (by simp [h])] at hw
    simp at hw
  rcases client_thread_body_cases s c l s1 b hb with ⟨_, h6, _⟩ | ⟨_, h6 | h6 | h6 | ⟨h6, _⟩⟩
  · rcases name_branch_cases s c (split_by_char l ' ' 2)[1]? with ⟨h7, _⟩ | ⟨t, _, _, h7⟩
    · left; exact good (h6.trans h7)
    · exfalso
      apply silent
      rw [h6, h7]
      split <;> rfl
  · exact (silent (sub_branch_frame _ _ _ _ _ h6).2.1).elim
  · rcases pub_branch_shape _ _ _ _ _ hinv.1 h6 with h7 | h7 | ⟨n, T, P, hn, ht, hT, hP, h7⟩
    · left; exact good h7
    · exact (silent (by rw [h7])).elim
    · right
      rw [newWrites_append s s1 ((s.subscribers_of T).map (fun r => (r, pubLine n T P)))
        (by rw [h7])] at hw
      simp only [List.mem_map, Prod.mk.injEq] at hw
      obtain ⟨x, hx, hxr, htext⟩ := hw
      have hname : s.nameOf id = some n := by simp [Server.nameOf, hg, hn]
      have hsub := split_tail_subset l _ ht
      have hTn : '\n' ∉ T := fun h => hl (hsub _ (by simp [h]))
      have hPn : '\n' ∉ P := fun h => hl (hsub _ (by simp [h]))
      have hform : text = n ++ ':' :: (T ++ ':' :: (P ++ ['\n'])) := by
        rw [← htext]; simp [pubLine]
      refine ⟨n, T, P, hname, hxr ▸ hx, by rw [← htext]; rfl,
        hT, hTn, hP, hPn, ?_, ?_, ?_⟩
      · intro hacc
        have h8 := name_of_run es s id hr
        rw [hacc, hname] at h8
        exact ⟨h8.symm, firstName_valid id es n h8.symm⟩
      · intro hc
        rw [hform]; exact takeWhile_colon n _ hc
      · intro hc
        rw [hform, drop_past_colon]
        exact takeWhile_colon T _ hc
  · exact (silent (unsub_branch_frame _ _ _ _ _ h6).2.1).elim
  · left; exact good h6

/-- C12, as amended, on a concrete step: `alice` (connection 1) is subscribed to
`news`, `bob` (connection 2, accepted with the field `name` NULL) publishes
`hello world`. -/
theorem C12_amended_witness :
    ∃ n T P, "bob:news:hello world\n".toList = n ++ [':'] ++ T ++ [':'] ++ P ++ ['\n'] ∧
      ValidString n ∧ ' ' ∉ T ∧ '\n' ∉ T ∧ P ≠ [] ∧ '\n' ∉ P := by
  have h := C12_amended
    [Event.accept none, Event.start 1, Event.line 1 ("name alice".toList),
      Event.line 1 ("sub news".toList), Event.accept none, Event.start 2,
      Event.line 2 ("name bob".toList)]
    { clientCount := 2,
      clients := [⟨1, some "alice".toList, true, true, false⟩,
                  ⟨2, some "bob".toList, true, true, false⟩],
      sm := { sm := [⟨"news".toList, ⟨[1], 1, 1⟩⟩], count := 1 },
      statistics := [0, 0, 0, 0, 0], guard := 2, out := [] }
    2 ("pub news hello world".toList)
    { clientCount := 2,
      clients := [⟨1, some "alice".toList, true, true, false⟩,
                  ⟨2, some "bob".toList, true, true, false⟩],
      sm := { sm := [⟨"news".toList, ⟨[1], 1, 1⟩⟩], count := 1 },
      statistics := [0, 0, 0, 0, 0], guard := 3,
      out := [(1, "bob:news:hello world\n".toList)] }
    1 ("bob:news:hello world\n".toList)
    (by decide) (by decide) (by decide)
  rcases h with ⟨h1, _⟩ | ⟨n, T, P, _, _, h3, h5, h6, h7, h8, h9, _⟩
  · exact absurd h1 (by decide)
  · exact ⟨n, T, P, h3, (h9 (by decide)).2, h5, h6, h7, h8⟩

/-- C13 fails as stated: for the empty string both copies of `is_valid_string`
return 1. -/
theorem C13_counterexample :
    is_valid_string [] = 1 ∧ PSClient.is_valid_string [] = 1 := by
  decide

/-- C13, as amended: `is_valid_string(s)` returns 1 exactly when `s` contains no
space, no colon and no newline (the empty string included), and returns 0 for
every other string; this holds for the server's copy and for the client's
copy. -/
theorem C13_amended (s : CString) :
    (is_valid_string s = 1 ↔ (' ' ∉ s ∧ ':' ∉ s ∧ '\n' ∉ s)) ∧
    (is_valid_string s = 0 ↔ ¬ (' ' ∉ s ∧ ':' ∉ s ∧ '\n' ∉ s)) ∧
    (PSClient.is_valid_string s = 1 ↔ (' ' ∉ s ∧ ':' ∉ s ∧ '\n' ∉ s)) ∧
    (PSClient.is_valid_string s = 0 ↔ ¬ (' ' ∉ s ∧ ':' ∉ s ∧ '\n' ∉ s)) := by
  have key : (strchr s ' ' || strchr s ':' || strchr s '\n') = true ↔
      ¬ (' ' ∉ s ∧ ':' ∉ s ∧ '\n' ∉ s) := by
    simp only [strchr, Bool.or_eq_true, decide_eq_true_eq]
    tauto
  by_cases h : (strchr s ' ' || strchr s ':' || strchr s '\n') = true
  · have h2 := key.1 h
    simp [is_valid_string, PSClient.is_valid_string, h, h2]
  · have h2 : ' ' ∉ s ∧ ':' ∉ s ∧ '\n' ∉ s := by
      by_contra hc; exact h (key.2 hc)
    simp [is_valid_string, PSClient.is_valid_string, h, h2]

/-- C14 fails as stated: the named connection 1 sends `sub t`, which is accepted
(the subscriber list of `t` becomes `[1]`); the five counters are all 0 before
the line and all 0 after it. -/
theorem C14_counterexample :
    (run Server.init
      [Event.accept none, Event.start 1, Event.line 1 ("name a".toList)]).map
      (fun s => (s.subscribers_of "t".toList, s.statistics)) = some ([], [0, 0, 0, 0, 0]) ∧
    (run Server.init
      [Event.accept none, Event.start 1, Event.line 1 ("name a".toList),
       Event.line 1 ("sub t".toList)]).map
      (fun s => (s.subscribers_of "t".toList, s.statistics)) = some ([1], [0, 0, 0, 0, 0]) := by
  decide

/-- C14, as amended: processing a line of a connection in a reachable state, an
accepted `sub`, `unsub` or `pub` line included, leaves all five counters of the
shared counter set unchanged, and each of them is 0. -/
theorem C14_amended (s : Server) (id : Nat) (l : CString) (s' : Server)
    (hr : Reachable s) (hs : step s (Event.line id l) = some s') :
    s'.statistics = s.statistics ∧ s'.statistics = [0, 0, 0, 0, 0] := by
  have h1 := step_statistics s _ s' hs
  exact ⟨h1, by rw [h1]; exact reachable_statistics s hr⟩

/-- C14, as amended, on a concrete step: the named connection 1 sends `sub t`. -/
theorem C14_amended_witness :
    step { clientCount := 1, clients := [⟨1, some "a".toList, true, true, false⟩],
           sm := stringmap_init, statistics := [0, 0, 0, 0, 0], guard := 1, out := [] }
         (Event.line 1 ("sub t".toList))
      = some { clientCount := 1, clients := [⟨1, some "a".toList, true, true, false⟩],
               sm := { sm := [⟨"t".toList, ⟨[1], 1, 1⟩⟩], count := 1 },
               statistics := [0, 0, 0, 0, 0], guard := 2, out := [] } ∧
    Server.statistics
      { clientCount := 1, clients := [⟨1, some "a".toList, true, true, false⟩],
        sm := { sm := [⟨"t".toList, ⟨[1], 1, 1⟩⟩], count := 1 },
        statistics := [0, 0, 0, 0, 0], guard := 2, out := [] } = [0, 0, 0, 0, 0] :=
  ⟨by decide,
   (C14_amended
    { clientCount := 1, clients := [⟨1, some "a".toList, true, true, false⟩],
      sm := stringmap_init, statistics := [0, 0, 0, 0, 0], guard := 1, out := [] }
    1 ("sub t".toList)
    { clientCount := 1, clients := [⟨1, some "a".toList, true, true, false⟩],
      sm := { sm := [⟨"t".toList, ⟨[1], 1, 1⟩⟩], count := 1 },
      statistics := [0, 0, 0, 0, 0], guard := 2, out := [] }
    ⟨[Event.accept none, Event.start 1, Event.line 1 ("name a".toList)], by decide⟩
    (by decide)).2⟩

/-- C15 fails as stated: the server is started with connections = 1; after two
connections have been accepted and named, two connections are named and still
connected. -/
theorem C15_counterexample :
    (run (Server.start 1)
      [Event.accept none, Event.start 1, Event.line 1 ("name a".toList),
       Event.accept none, Event.start 2, Event.line 2 ("name b".toList)]).map
      (fun s => (s.namedConnected, decide (s.namedConnected ≤ 1))) = some (2, false) := by
  decide

/-- C15, as amended: whatever value of `connections` the server is started with
(0 or n > 0), the number of connections that are named and still connected is
not bounded: for every k a state with exactly k such connections is reachable. -/
theorem C15_amended (connections : Int) (k : Nat) :
    ∃ es s, run (Server.start connections) es = some s ∧ s.namedConnected = k := by
  obtain ⟨es, s, h1, _, _, h4⟩ := named_connections k
  exact ⟨es, s, h1, h4⟩

/-- C16, evaluated on the code: `main` tests `isdigit` on the first character of
each numeric argument and converts with `atoi`, which stops at the first
character that is no digit, so text after the leading digits goes unnoticed.
The connections argument `5abc` is no decimal integer and the port argument
`1024x` is none either, yet `main` raises no usage error: it goes on to
`open_listen` with connections 5, in the second case with the port string
`1024x`.  The same arguments without the trailing text are accepted, and a port
argument that begins with a letter is rejected. -/
theorem C16_trailing_characters :
    main ["psserver".toList, "5abc".toList] = some (MainResult.open_listen ['0'] 5) ∧
    "5abc".toList.all isdigit = false ∧
    main ["psserver".toList, "5".toList, "1024x".toList]
      = some (MainResult.open_listen "1024x".toList 5) ∧
    "1024x".toList.all isdigit = false ∧
    main ["psserver".toList, "5".toList, "1024".toList]
      = some (MainResult.open_listen "1024".toList 5) ∧
    main ["psserver".toList, "5".toList, "x1024".toList] = some print_err := by
  decide

/-- C18: `stringmap_add(sm, key, item)` returns 1 exactly when `sm`, `key` and
`item` are non-NULL and no entry has the key.  In that case the new entry (the
key, the item as given) is the last entry after all earlier entries, which are
unchanged, `count` has grown by one, searching the key returns the item, and
searching any other key gives what it gave before.  In every other case it
returns 0 and the map is unchanged. -/
theorem C18_stringmap_add {α : Type} (sm : Option (StringMap α)) (key : Option CString)
    (item : Option α) :
    ((stringmap_add_ptr sm key item).2 = 1 ↔
      ∃ m k it, sm = some m ∧ key = some k ∧ item = some it ∧ ∀ e ∈ m.entries, e.key ≠ k) ∧
    (∀ m k it, sm = some m → key = some k → item = some it →
      (∀ e ∈ m.entries, e.key ≠ k) →
      ∃ m', (stringmap_add_ptr sm key item).1 = some m' ∧
        m'.entries = m.entries ++ [{ key := k, item := it }] ∧ m'.count = m.count + 1 ∧
        stringmap_search_ptr (some m') key = some it ∧
        ∀ k', k' ≠ key → stringmap_search_ptr (some m') k' = stringmap_search_ptr sm k') ∧
    ((stringmap_add_ptr sm key item).2 ≠ 1 →
      (stringmap_add_ptr sm key item).2 = 0 ∧ (stringmap_add_ptr sm key item).1 = sm) := by
  have hsucc : ∀ (m : StringMap α) k it, (∀ e ∈ m.entries, e.key ≠ k) →
      (stringmap_add_ptr (some m) (some k) (some it)).2 = 1 := by
    intro m k it h
    simp only [stringmap_add_ptr, (stringmap_add_entries m k it h).1]
  have hfail : ∀ (m : StringMap α) k it, ¬ (∀ e ∈ m.entries, e.key ≠ k) →
      stringmap_add m (some k) (some it) = (m, 0) := by
    intro m k it h
    cases hs : stringmap_search m (some k) with
    | none => exact absurd ((searchLoop_eq_none k m.entries).1 hs) h
    | some a => simp only [stringmap_add, hs]
  refine ⟨?_, ?_, ?_⟩
  · constructor
    · intro h
      cases sm with
      | none => simp [stringmap_add_ptr] at h
      | some m =>
        cases key with
        | none => simp [stringmap_add_ptr, stringmap_add] at h
        | some k =>
          cases item with
          | none => simp [stringmap_add_ptr, stringmap_add] at h
          | some it =>
            by_cases hno : ∀ e ∈ m.entries, e.key ≠ k
            · exact ⟨m, k, it, rfl, rfl, rfl, hno⟩
            · simp [stringmap_add_ptr, hfail m k it hno] at h
    · rintro ⟨m, k, it, rfl, rfl, rfl, hno⟩
      exact hsucc m k it hno
  · intro m k it h1 h2 h3 hno
    subst h1 h2 h3
    obtain ⟨ha, hb⟩ := stringmap_add_entries m k it hno
    refine ⟨(stringmap_add m (some k) (some it)).1, rfl, hb, by rw [ha], ?_, ?_⟩
    · simp only [stringmap_search_ptr, stringmap_search, hb, searchLoop_append]
      rw [(searchLoop_eq_none k m.entries).2 hno]
      simp [searchLoop]
    · intro k' hk'
      cases k' with
      | none => rfl
      | some k2 =>
        have hne : ¬ k = k2 := fun h => hk' (by rw [h])
        simp only [stringmap_search_ptr, stringmap_search, hb, searchLoop_append, searchLoop,
          hne, if_false]
        cases searchLoop k2 m.entries <;> rfl
  · intro h
    cases sm with
    | none => exact ⟨rfl, rfl⟩
    | some m =>
      cases key with
      | none => exact ⟨rfl, rfl⟩
      | some k =>
        cases item with
        | none => exact ⟨rfl, rfl⟩
        | some it =>
          by_cases hno : ∀ e ∈ m.entries, e.key ≠ k
          · exact absurd (hsucc m k it hno) h
          · simp [stringmap_add_ptr, hfail m k it hno]

/-- C18 on a concrete map: adding the key `b` with item 2 to the map that holds
`a` with item 1. -/
theorem C18_stringmap_add_witness :
    (∀ e ∈ (StringMap.build [MapOp.add (some ['a']) (some 1)] : StringMap Nat).entries,
      e.key ≠ ['b']) ∧
    ∃ m', (stringmap_add_ptr
        (some (StringMap.build [MapOp.add (some ['a']) (some 1)] : StringMap Nat))
        (some ['b']) (some 2)).1 = some m' ∧
      m'.entries = [{ key := ['a'], item := 1 }, { key := ['b'], item := 2 }] ∧
      stringmap_search_ptr (some m') (some ['b']) = some 2 := by
  have hno : ∀ e ∈ (StringMap.build [MapOp.add (some ['a']) (some 1)] : StringMap Nat).entries,
      e.key ≠ ['b'] := by decide
  obtain ⟨m', h1, h2, _, h4, _⟩ := (C18_stringmap_add
    (some (StringMap.build [MapOp.add (some ['a']) (some 1)] : StringMap Nat))
    (some ['b']) (some 2)).2.1 _ ['b'] 2 rfl rfl rfl hno
  exact ⟨hno, m', h1, by rw [h2]; rfl, h4⟩

/-- C19: for a map built from `stringmap_init` by add and remove calls,
`stringmap_remove(sm, key)` returns 1 exactly when `key` is non-NULL and an entry
with that key exists (with `sm == NULL` it returns 0).  In that case that entry
is deleted and the other entries stay in their order, `count` drops by one,
searching the key then returns NULL and searching any other key gives what it
gave before.  In every other case it returns 0 and the map is unchanged. -/
theorem C19_stringmap_remove {α : Type} (ops : List (MapOp α)) (key : Option CString) :
    stringmap_remove_ptr (none : Option (StringMap α)) key = (none, 0) ∧
    ((stringmap_remove_ptr (some (StringMap.build ops)) key).2 = 1 ↔
      ∃ k, key = some k ∧ ∃ e ∈ (StringMap.build ops).entries, e.key = k) ∧
    (∀ k, key = some k → (∃ e ∈ (StringMap.build ops).entries, e.key = k) →
      ∃ m' pre e post,
        (stringmap_remove_ptr (some (StringMap.build ops)) key).1 = some m' ∧
        (StringMap.build ops).entries = pre ++ e :: post ∧ e.key = k ∧
        m'.entries = pre ++ post ∧ (StringMap.build ops).count = m'.count + 1 ∧
        stringmap_search_ptr (some m') key = none ∧
        ∀ k', k' ≠ key →
          stringmap_search_ptr (some m') k' =
            stringmap_search_ptr (some (StringMap.build ops)) k') ∧
    ((stringmap_remove_ptr (some (StringMap.build ops)) key).2 ≠ 1 →
      (stringmap_remove_ptr (some (StringMap.build ops)) key).2 = 0 ∧
      (stringmap_remove_ptr (some (StringMap.build ops)) key).1 =
        some (StringMap.build ops)) := by
  have hwf := build_wf ops
  have hfail : ∀ k, ¬ (∃ e ∈ (StringMap.build ops).entries, e.key = k) →
      stringmap_remove (StringMap.build ops) (some k) = (StringMap.build ops, 0) := by
    intro k h
    have : removeLoop k (StringMap.build ops).entries = none := by
      rw [removeLoop_eq_none]
      intro e he hk
      exact h ⟨e, he, hk⟩
    simp only [stringmap_remove, this]
  refine ⟨rfl, ?_, ?_, ?_⟩
  · constructor
    · intro h
      cases key with
      | none => simp [stringmap_remove_ptr, stringmap_remove] at h
      | some k =>
        by_cases hex : ∃ e ∈ (StringMap.build ops).entries, e.key = k
        · exact ⟨k, rfl, hex⟩
        · simp [stringmap_remove_ptr, hfail k hex] at h
    · rintro ⟨k, rfl, hex⟩
      obtain ⟨pre, e, post, _, _, h3, _⟩ := stringmap_remove_spec _ k hwf hex
      simp only [stringmap_remove_ptr, h3]
  · intro k hk hex
    subst hk
    obtain ⟨pre, e, post, h1, h2, _, h4, h5, h6, h7⟩ := stringmap_remove_spec _ k hwf hex
    exact ⟨_, pre, e, post, rfl, h1, h2, h4, h5, h6, h7⟩
  · intro h
    cases key with
    | none => exact ⟨rfl, rfl⟩
    | some k =>
      by_cases hex : ∃ e ∈ (StringMap.build ops).entries, e.key = k
      · obtain ⟨pre, e, post, _, _, h3, _⟩ := stringmap_remove_spec _ k hwf hex
        simp [stringmap_remove_ptr, h3] at h
      · simp [stringmap_remove_ptr, hfail k hex]

/-- C19 on a concrete map: removing the key `a` from the map built by adding
`a`, `b` and `c`. -/
theorem C19_stringmap_remove_witness :
    (∃ e ∈ (StringMap.build [MapOp.add (some ['a']) (some 1), MapOp.add (some ['b']) (some 2),
        MapOp.add (some ['c']) (some 3)] : StringMap Nat).entries, e.key = ['a']) ∧
    ∃ m', (stringmap_remove_ptr (some (StringMap.build
        [MapOp.add (some ['a']) (some 1), MapOp.add (some ['b']) (some 2),
         MapOp.add (some ['c']) (some 3)] : StringMap Nat)) (some ['a'])).1 = some m' ∧
      m'.count = 2 ∧ stringmap_search_ptr (some m') (some ['a']) = none ∧
      stringmap_search_ptr (some m') (some ['c']) = some 3 := by
  have hex : ∃ e ∈ (StringMap.build [MapOp.add (some ['a']) (some 1),
      MapOp.add (some ['b']) (some 2), MapOp.add (some ['c']) (some 3)] : StringMap Nat).entries,
      e.key = ['a'] := ⟨{ key := ['a'], item := 1 }, by decide, rfl⟩
  obtain ⟨m', pre, e, post, h1, _, _, _, h5, h6, h7⟩ := (C19_stringmap_remove
    [MapOp.add (some ['a']) (some 1), MapOp.add (some ['b']) (some 2),
     MapOp.add (some ['c']) (some 3)] (some ['a'])).2.2.1 ['a'] rfl hex
  refine ⟨hex, m', h1, ?_, h6, ?_⟩
  · have h8 : (StringMap.build [MapOp.add (some ['a']) (some 1),
        MapOp.add (some ['b']) (some 2), MapOp.add (some ['c']) (some 3)] : StringMap Nat).count
        = 3 := by decide
    omega
  · rw [h7 (some ['c']) (by decide)]
    decide

/-- C20, evaluated on the code: `stringmap_iterate(sm, NULL)` returns
`sm->sm[0]` without looking at `count`.  On the map that `stringmap_init()`
returns, and on a map whose only entry has been removed, `count` is 0 and slot 0
holds no entry: the call has no defined result (`none`), it does not return NULL
(`some none`). -/
theorem C20_iterate_empty_map :
    (stringmap_init : StringMap Nat).count = 0 ∧
    stringmap_iterate (stringmap_init : StringMap Nat) none = none ∧
    (StringMap.build [MapOp.add (some ['a']) (some 1), MapOp.remove (some ['a'])] :
      StringMap Nat).count = 0 ∧
    stringmap_iterate (StringMap.build
      [MapOp.add (some ['a']) (some 1), MapOp.remove (some ['a'])] : StringMap Nat) none
      = none := by
  decide

/-- C21, evaluated on the code: `take_lock` stands before the read loop of
`client_thread` and `release_lock` at the end of every pass.  After the first
line of connection 1 (`name a`) the semaphore is back at 1 although the handler
goes on; its next line `sub t` changes the topic index without any `take_lock`
before it and releases again, so the semaphore is 2; then the handlers of two
more connections both pass `take_lock`, and three handlers are past it at the
same time. -/
theorem C21_guard_exceeds_one :
    (run Server.init
      [Event.accept none, Event.start 1, Event.line 1 ("name a".toList)]).map
      (fun s => (s.guard, s.subscribers_of "t".toList)) = some (1, []) ∧
    (run Server.init
      [Event.accept none, Event.start 1, Event.line 1 ("name a".toList),
       Event.line 1 ("sub t".toList)]).map
      (fun s => (s.guard, s.subscribers_of "t".toList)) = some (2, [1]) ∧
    (run Server.init
      [Event.accept none, Event.start 1, Event.line 1 ("name a".toList),
       Event.line 1 ("sub t".toList), Event.accept none, Event.start 2,
       Event.accept none, Event.start 3]).map
      (fun s => (s.guard, s.clients.map (fun c => c.started))) = some (0, [true, true, true]) := by
  decide

/-- C22: for an array whose first `count` slots have been written,
`remove_client(a, i)` with `0 <= i < count` makes the subscriber list (the first
`count` slots) the old list without its `i`-th entry, the other entries in their
old order, and lowers `count` by one; with `i < 0` or `i >= count` it changes
nothing.  `delete_client(a, c)` removes the first entry equal to `c` in this way
and changes nothing when `c` is not listed. -/
theorem C22_remove_and_delete (a : ClientArray) (h : a.count ≤ a.used) :
    (∀ i : Nat, i < a.count →
      ∃ a', remove_client a (i : Int) = some a' ∧
        a'.subscribers = a.subscribers.eraseIdx i ∧ a.count = a'.count + 1) ∧
    (∀ index : Int, (index < 0 ∨ index ≥ (a.count : Int)) →
      remove_client a index = some a) ∧
    (∀ c, c ∈ a.subscribers →
      ∃ a', delete_client a c = some a' ∧
        a'.subscribers = a.subscribers.erase c ∧ a.count = a'.count + 1) ∧
    (∀ c, c ∉ a.subscribers → delete_client a c = some a) := by
  refine ⟨?_, ?_, ?_, ?_⟩
  · intro i hi
    obtain ⟨a', h1, h2, h3, _⟩ := remove_client_spec a i h hi
    exact ⟨a', h1, h2, h3⟩
  · intro index hr
    exact remove_client_out_of_range a index hr
  · intro c hc
    obtain ⟨a', h1, h2, h3, _⟩ := (delete_client_spec a c h).2 hc
    exact ⟨a', h1, h2, h3⟩
  · intro c hc
    exact (delete_client_spec a c h).1 hc

/-- C22 on a concrete array: the slots `[1, 2, 3]` with `count = 3`; removing
index 1 leaves the subscriber list `[1, 3]`, deleting client 1 leaves `[2, 3]`. -/
theorem C22_remove_and_delete_witness :
    (∃ a', remove_client { client := [1, 2, 3], size := 4, count := 3 } 1 = some a' ∧
      a'.subscribers = [1, 3] ∧ a'.count = 2) ∧
    (∃ a', delete_client { client := [1, 2, 3], size := 4, count := 3 } 1 = some a' ∧
      a'.subscribers = [2, 3] ∧ a'.count = 2) := by
  have h := C22_remove_and_delete { client := [1, 2, 3], size := 4, count := 3 } (by decide)
  obtain ⟨a1, h1, h2, h3⟩ := h.1 1 (by decide)
  obtain ⟨a2, h4, h5, h6⟩ := h.2.2.1 1 (by decide)
  refine ⟨⟨a1, h1, by rw [h2]; rfl, ?_⟩, ⟨a2, h4, by rw [h5]; rfl, ?_⟩⟩
  · simp only at h3; omega
  · simp only at h6; omega

/-- C23: in every StringMap built from `stringmap_init()` by any sequence of
`stringmap_add` and `stringmap_remove` calls, no two entries have equal keys, and
`count` equals the number of stored entries (so that the loops over `count`
visit all of them). -/
theorem C23_keys_unique {α : Type} (ops : List (MapOp α)) :
    ((StringMap.build ops).entries.map (fun e => e.key)).Nodup ∧
    (StringMap.build ops).count = (StringMap.build ops).sm.length ∧
    (StringMap.build ops).entries = (StringMap.build ops).sm := by
  have h := build_wf ops
  have he := entries_of_wf _ h
  exact ⟨by rw [he]; exact h.2, h.1.symm, he⟩

/-- C24: for a port argument made only of decimal digits with a value below 2^31
and a connections argument of the same kind, `main` raises no usage error
exactly when the port value is 0 or lies in [1024, 65535]; it then calls
`open_listen` with the port string `argv[2]` unchanged, and it writes the usage
line and exits with status 1 otherwise.  When the port argument is absent the
port string handed to `open_listen` is `0`. -/
theorem C24_port_range (p a1 a2 : CString) (h1 : IsNumeral a1)
    (h1r : decimalValue a1 < 2 ^ 31) (h2 : IsNumeral a2) (h2r : decimalValue a2 < 2 ^ 31) :
    (main [p, a1, a2] ≠ some print_err ↔
      (decimalValue a2 = 0 ∨ (1024 ≤ decimalValue a2 ∧ decimalValue a2 ≤ 65535))) ∧
    ((decimalValue a2 = 0 ∨ (1024 ≤ decimalValue a2 ∧ decimalValue a2 ≤ 65535)) →
      main [p, a1, a2] = some (MainResult.open_listen a2 (decimalValue a1 : Int))) ∧
    (¬ (decimalValue a2 = 0 ∨ (1024 ≤ decimalValue a2 ∧ decimalValue a2 ≤ 65535)) →
      main [p, a1, a2] = some print_err) ∧
    main [p, a1] = some (MainResult.open_listen ['0'] (decimalValue a1 : Int)) := by
  obtain ⟨hd1, hv1⟩ := numeral_facts a1 h1
  obtain ⟨hd2, hv2⟩ := numeral_facts a2 h2
  have ha := atoi_in_range a1 hd1 (by rw [hv1]; exact h1r)
  have hb := atoi_in_range a2 hd2 (by rw [hv2]; exact h2r)
  rw [hv1] at ha
  rw [hv2] at hb
  have hnn : ¬ ((decimalValue a1 : Int) < 0) := by omega
  have hok : (decimalValue a2 = 0 ∨ (1024 ≤ decimalValue a2 ∧ decimalValue a2 ≤ 65535)) →
      main [p, a1, a2] = some (MainResult.open_listen a2 (decimalValue a1 : Int)) := by
    intro h
    have hp : ¬ ((decimalValue a2 < 1024 ∨ 65535 < decimalValue a2) ∧
        ¬ decimalValue a2 = 0) := by omega
    simp only [main, List.length_cons, List.length_nil]
    simp [hd1, ha, hd2, hb, hp, hnn]
  have hbad : ¬ (decimalValue a2 = 0 ∨ (1024 ≤ decimalValue a2 ∧ decimalValue a2 ≤ 65535)) →
      main [p, a1, a2] = some print_err := by
    intro h
    have hp : (decimalValue a2 < 1024 ∨ 65535 < decimalValue a2) ∧
        ¬ decimalValue a2 = 0 := by omega
    simp only [main, List.length_cons, List.length_nil]
    simp [hd1, ha, hd2, hb, hp, hnn]
  refine ⟨?_, hok, hbad, ?_⟩
  · constructor
    · intro h
      by_contra hc
      exact h (hbad hc)
    · intro h
      rw [hok h]
      simp [print_err]
  · simp [main, hd1, ha]

/-- C24 on concrete arguments: with connections `5`, the ports `1024`, `65535`
and `0` are accepted and handed on unchanged, the ports `1023` and `65536` are
rejected, and without a port argument the port string is `0`. -/
theorem C24_port_range_witness :
    main ["psserver".toList, "5".toList, "1024".toList]
      = some (MainResult.open_listen "1024".toList 5) ∧
    main ["psserver".toList, "5".toList, "65535".toList]
      = some (MainResult.open_listen "65535".toList 5) ∧
    main ["psserver".toList, "5".toList, "0".toList]
      = some (MainResult.open_listen "0".toList 5) ∧
    main ["psserver".toList, "5".toList, "1023".toList] = some print_err ∧
    main ["psserver".toList, "5".toList, "65536".toList] = some print_err ∧
    main ["psserver".toList, "5".toList] = some (MainResult.open_listen "0".toList 5) := by
  have n5 : IsNumeral "5".toList := by unfold IsNumeral; decide
  have v5 : decimalValue "5".toList < 2 ^ 31 := by decide
  have k (a2 : CString) (h2 : IsNumeral a2) (h2r : decimalValue a2 < 2 ^ 31) :=
    C24_port_range "psserver".toList "5".toList a2 n5 v5 h2 h2r
  refine ⟨?_, ?_, ?_, ?_, ?_, ?_⟩
  · exact (k "1024".toList (by unfold IsNumeral; decide) (by decide)).2.1 (by decide)
  · exact (k "65535".toList (by unfold IsNumeral; decide) (by decide)).2.1 (by decide)
  · exact (k "0".toList (by unfold IsNumeral; decide) (by decide)).2.1 (by decide)
  · exact (k "1023".toList (by unfold IsNumeral; decide) (by decide)).2.2.1 (by decide)
  · exact (k "65536".toList (by unfold IsNumeral; decide) (by decide)).2.2.1 (by decide)
  · exact (k "0".toList (by unfold IsNumeral; decide) (by decide)).2.2.2

/-- C25: for a ClientArray created by `init_client_array` with
`initialSize >= 1`, every sequence of `insert_client_array`, `remove_client` and
`delete_client` calls has a defined result and keeps `count <= used <= size`.
Hence the slot the next `insert_client_array` writes (index `used`, after
doubling `size` when `used == size`) lies inside the allocated slots, every
index below `count` is a slot that has been written, and the loops over the
first `count` slots (the searches of the sub and unsub branches and the fan-out
loop of pub) read written slots only. -/
theorem C25_array_bounds (initialSize : Nat) (ops : List ArrOp) (h : 1 ≤ initialSize) :
    ∃ a, ClientArray.build initialSize ops = some a ∧
      a.count ≤ a.used ∧ a.used ≤ a.size ∧
      a.used < (if a.used = a.size then a.size * 2 else a.size) ∧
      (∀ i, i < a.count → ∃ c, a.client[i]? = some c) ∧
      (∀ x, ∃ r, findClient a.client x 0 a.count = some r) ∧
      (∀ x, ∃ r, insert_client_array a x = some r) ∧
      pubLoop a.client 0 a.count = some a.subscribers := by
  obtain ⟨a, h1, h2⟩ := applyAll_wf ops _ (init_client_array_wf_of_pos initialSize h)
  obtain ⟨hc, hu, hs⟩ := h2
  refine ⟨a, h1, hc, hu, ?_, ?_, ?_, ?_, ?_⟩
  · simp only [ClientArray.used]
    by_cases he : a.client.length = a.size
    · simp only [he, if_true]; omega
    · simp only [he, if_false]; omega
  · intro i hi
    exact ⟨a.client[i], List.getElem?_eq_getElem (by omega)⟩
  · intro x
    exact findClient_defined a.client x a.count 0 (by omega)
  · intro x
    obtain ⟨a', r, h3, _⟩ := insert_client_array_wf a x ⟨hc, hu, hs⟩
    exact ⟨(a', r), h3⟩
  · rw [pubLoop_eq a.client a.count 0 (by omega)]
    simp [ClientArray.subscribers]

/-- C25 on a concrete sequence of calls: from `init_client_array(a, 1)`, insert
1, insert 2, delete 1, insert 3. -/
theorem C25_array_bounds_witness :
    ClientArray.build 1 [ArrOp.insert 1, ArrOp.insert 2, ArrOp.delete 1, ArrOp.insert 3]
      = some { client := [2, 2, 3], size := 4, count := 2 } ∧
    ClientArray.count { client := [2, 2, 3], size := 4, count := 2 }
      ≤ ClientArray.used { client := [2, 2, 3], size := 4, count := 2 } ∧
    ClientArray.used { client := [2, 2, 3], size := 4, count := 2 }
      ≤ ClientArray.size { client := [2, 2, 3], size := 4, count := 2 } := by
  obtain ⟨a, h1, h2, h3, _⟩ := C25_array_bounds 1
    [ArrOp.insert 1, ArrOp.insert 2, ArrOp.delete 1, ArrOp.insert 3] (by decide)
  have h4 : ClientArray.build 1 [ArrOp.insert 1, ArrOp.insert 2, ArrOp.delete 1, ArrOp.insert 3]
      = some { client := [2, 2, 3], size := 4, count := 2 } := by decide
  rw [h4] at h1
  cases h1
  exact ⟨h4, h2, h3⟩

end PSServer
